import Mathlib

/-!
# Verification of `reconcile_accounts`

A shallow embedding of `src/reconcile_accounts.py`: the reconciliation core
(date parsing, row normalization, index-key construction, per-ledger indexing,
the greedy date-tolerant matcher `find_and_mark`, and the two-phase
orchestrator `reconcile_accounts`), together with proofs of the specified
properties.

Modelling conventions:
* Python dates become proleptic-Gregorian day numbers (`Int`), computed by the
  standard civil-from-date formula, so `(d1 - d2).days` is integer subtraction.
* Python `float` amounts are modelled by exact decimal parsing into a sign and
  a nonnegative rational, and `f"{x:.6f}"` by half-even rounding of the
  rational at 6 decimal places.  This captures the decimal semantics the code
  relies on; binary-float rounding error, `inf`/`nan` spellings and digit
  underscores are outside the model.
* Raw input cells are nullable strings; a non-sequence row is a distinguished
  constructor (the code coerces it to `[]`).
* In-place mutation of the Python entry dicts becomes functional update
  (`List.set`) at the entry's position.
-/

namespace Reconcile

/-- A raw input cell: `none` models Python `None`, `some s` a string cell. -/
abbrev Cell := Option String

/-- A raw input row: either a sequence of nullable cells, or a value that is
not a list/tuple (which `normalize_row` coerces to the empty row). -/
inductive RawRow where
  | cells : List Cell → RawRow
  | notASequence : RawRow
deriving DecidableEq

instance : Inhabited RawRow := ⟨RawRow.notASequence⟩

/-! ## Calendar arithmetic (model of `datetime.date`) -/

/-- Gregorian leap-year test. -/
def isLeapYear (y : Nat) : Bool :=
  y % 4 == 0 && (y % 100 != 0 || y % 400 == 0)

/-- Number of days in month `m` of year `y` (model of `datetime`'s validity
check for the day component). -/
def daysInMonth (y m : Nat) : Nat :=
  if m = 2 then (if isLeapYear y then 29 else 28)
  else if m = 4 ∨ m = 6 ∨ m = 9 ∨ m = 11 then 30
  else 31

/-- Day number of the civil date `y-m-d` (days since 1970-01-01, the standard
days-from-civil formula), so that Python's `(a - b).days` is `a - b` here. -/
def civilToDays (y m d : Nat) : Int :=
  let y' : Nat := if m ≤ 2 then y - 1 else y
  let era : Nat := y' / 400
  let yoe : Nat := y' % 400
  let mp : Nat := (m + 9) % 12
  let doy : Nat := (153 * mp + 2) / 5 + d - 1
  let doe : Nat := yoe * 365 + yoe / 4 - yoe / 100 + doy
  (era * 146097 + doe : Int) - 719468

/-! ## String primitives

Python's `str.strip`, `str.lower` and the splitting done by `strptime` are
modelled by structurally recursive functions on the string's character list
(so every concrete evaluation reduces in the kernel). -/

/-- Decimal digits to a natural number (`int` of a digit string). -/
def digitsToNat (cs : List Char) : Nat :=
  cs.foldl (fun a c => a * 10 + (c.toNat - 48)) 0

/-- Python `str.strip()`: drop leading and trailing whitespace. -/
def pyStrip (s : String) : String :=
  ⟨(((s.data.dropWhile Char.isWhitespace).reverse.dropWhile
      Char.isWhitespace).reverse)⟩

/-- Python `str.lower()` (ASCII case folding). -/
def pyToLower (s : String) : String :=
  ⟨s.data.map Char.toLower⟩

/-- Split a character list at every `'-'` (model of matching the literal `-`
separators of the `%Y-%m-%d` format); always returns at least one group. -/
def splitOnDash : List Char → List (List Char)
  | [] => [[]]
  | c :: rest =>
    if c = '-' then [] :: splitOnDash rest
    else
      match splitOnDash rest with
      | [] => [[c]]
      | g :: gs => (c :: g) :: gs

/-- `parse_date`: strip the string and accept exactly the `strptime`
format `%Y-%m-%d` (4-digit year, 1–2 digit month in 1..12, 1–2 digit day valid
for the month, year ≥ 1); every other input yields `none`. -/
def parse_date (s : String) : Option Int :=
  match splitOnDash (pyStrip s).data with
  | [ys, ms, ds] =>
    if ys.length = 4 ∧ ys.all Char.isDigit ∧
       1 ≤ ms.length ∧ ms.length ≤ 2 ∧ ms.all Char.isDigit ∧
       1 ≤ ds.length ∧ ds.length ≤ 2 ∧ ds.all Char.isDigit then
      let y := digitsToNat ys
      let m := digitsToNat ms
      let d := digitsToNat ds
      if 1 ≤ y ∧ 1 ≤ m ∧ m ≤ 12 ∧ 1 ≤ d ∧ d ≤ daysInMonth y m then
        some (civilToDays y m d)
      else none
    else none
  | _ => none

/-! ## Row normalization -/

/-- `normalize_row`: coerce a non-sequence to `[]`, pad with `""` and truncate
to exactly 4 cells, replace `None` by `""` and strip each string cell. -/
def normalize_row (row : RawRow) : List String :=
  let asList : List Cell :=
    match row with
    | .cells cs => cs
    | .notASequence => []
  ((asList ++ List.replicate 4 (some "")).take 4).map
    (fun cell => match cell with
      | none => ""
      | some s => pyStrip s)

/-! ## Amount normalization (model of Python `float` and `f"{x:.6f}"`)

A parsed amount is kept as an exact decimal value `mantissa * 10 ^ exp`
(with a separate sign, so `-0` keeps its sign as Python's `-0.0` does).
This captures the decimal semantics the code relies on; binary-float rounding
error, `inf`/`nan` spellings and digit underscores are outside the model. -/

/-- The value of a parsed float literal: `(-1 if neg) * mantissa * 10 ^ exp`. -/
structure FloatVal where
  neg : Bool
  mantissa : Nat
  exp : Int
deriving DecidableEq

/-- The magnitude of a parsed float as an exact rational. -/
def FloatVal.mag (v : FloatVal) : ℚ :=
  (v.mantissa : ℚ) * 10 ^ v.exp

/-- Consume an optional leading sign, returning whether it was `-`. -/
def parseSignChar : List Char → Bool × List Char
  | '-' :: cs => (true, cs)
  | '+' :: cs => (false, cs)
  | cs => (false, cs)

/-- Parse the optional exponent suffix of a float literal: empty input means
exponent 0; otherwise `e`/`E`, optional sign, then one or more digits
consuming the whole remainder. -/
def parseExpPart : List Char → Option Int
  | [] => some 0
  | e :: cs =>
    if e = 'e' ∨ e = 'E' then
      let p := parseSignChar cs
      if p.2 ≠ [] ∧ p.2.all Char.isDigit then
        some (if p.1 then -(digitsToNat p.2 : Int) else (digitsToNat p.2 : Int))
      else none
    else none

/-- Model of Python `float(s)` on a stripped string: optional sign, digits
with an optional decimal point (at least one mantissa digit), optional
exponent. -/
def parse_float (s : String) : Option FloatVal :=
  let p := parseSignChar s.data
  let neg := p.1
  let cs := p.2
  let ip := cs.takeWhile Char.isDigit
  let rest := cs.dropWhile Char.isDigit
  let fr : List Char × List Char :=
    match rest with
    | '.' :: cs2 => (cs2.takeWhile Char.isDigit, cs2.dropWhile Char.isDigit)
    | _ => ([], rest)
  let fp := fr.1
  if ip = [] ∧ fp = [] then none
  else
    match parseExpPart fr.2 with
    | none => none
    | some ex => some ⟨neg, digitsToNat (ip ++ fp), ex - fp.length⟩

/-- Round the magnitude `m * 10 ^ e` at the sixth decimal place, ties to even:
the resulting natural number is the rendered value scaled by `10 ^ 6`. -/
def scaledRound6 (m : Nat) (e : Int) : Nat :=
  if 0 ≤ e + 6 then m * 10 ^ (e + 6).toNat
  else
    if 2 * (m % 10 ^ (-(e + 6)).toNat) < 10 ^ (-(e + 6)).toNat then
      m / 10 ^ (-(e + 6)).toNat
    else if 10 ^ (-(e + 6)).toNat < 2 * (m % 10 ^ (-(e + 6)).toNat) then
      m / 10 ^ (-(e + 6)).toNat + 1
    else if (m / 10 ^ (-(e + 6)).toNat) % 2 = 0 then
      m / 10 ^ (-(e + 6)).toNat
    else m / 10 ^ (-(e + 6)).toNat + 1

/-- Left-pad a digit string with zeros to width 6. -/
def padSixDigits (s : String) : String :=
  String.mk (List.replicate (6 - s.length) '0') ++ s

/-- Model of `f"{x:.6f}"` for a parsed amount: sign, integer part, `.`, and
exactly six fractional digits, the magnitude rounded at the sixth decimal. -/
def formatSixDecimals (v : FloatVal) : String :=
  (if v.neg then "-" else "") ++
    toString (scaledRound6 v.mantissa v.exp / 1000000) ++ "." ++
    padSixDigits (toString (scaledRound6 v.mantissa v.exp % 1000000))

/-- An index key: `(department.lower(), normalized amount, beneficiary.lower())`. -/
abbrev IndexKey := String × String × String

/-- `create_index_key`: lower-case department and beneficiary; render a
float-parseable amount to 6 decimal places, otherwise keep the (already
stripped) amount string verbatim. -/
def create_index_key (row : List String) : IndexKey :=
  let normalized_value_str : String :=
    match parse_float (row.getD 2 "") with
    | some v => formatSixDecimals v
    | none => row.getD 2 ""
  (pyToLower (row.getD 1 ""), normalized_value_str, pyToLower (row.getD 3 ""))

/-! ## Match entries and per-ledger indices -/

/-- A processed ledger entry: the normalized row plus the mutable reconciliation
metadata (`status`, `matched`). -/
structure Entry where
  original_row : List String
  status : String
  matched : Bool
deriving DecidableEq

instance : Inhabited Entry := ⟨⟨[], "MISSING", false⟩⟩

/-- The initial processed entry for a raw row: status `MISSING`, unmatched. -/
def initEntry (row : RawRow) : Entry :=
  ⟨normalize_row row, "MISSING", false⟩

/-- Mark an entry as found (`status = 'FOUND'`, `matched = True`). -/
def markFound (e : Entry) : Entry :=
  { e with status := "FOUND", matched := true }

/-- The bucket for `key` in insertion order: one `(date, position)` pair per
entry whose date parses and whose index key equals `key` (the body of the
`for idx, entry in enumerate(...)` index-building loop). -/
def rawBucketAux (key : IndexKey) : Nat → List Entry → List (Int × Nat)
  | _, [] => []
  | i, e :: rest =>
    match parse_date (e.original_row.getD 0 "") with
    | none => rawBucketAux key (i + 1) rest
    | some d =>
      if create_index_key e.original_row = key then
        (d, i) :: rawBucketAux key (i + 1) rest
      else rawBucketAux key (i + 1) rest

/-- The bucket for `key` over a processed ledger, in insertion order. -/
def rawBucket (processed : List Entry) (key : IndexKey) : List (Int × Nat) :=
  rawBucketAux key 0 processed

/-- Stable insertion of a pair into a date-sorted bucket: the new element goes
after every element with a strictly smaller date and before the rest, so
equal-date elements keep their original relative order. -/
def insertByDate (x : Int × Nat) : List (Int × Nat) → List (Int × Nat)
  | [] => [x]
  | y :: rest => if y.1 < x.1 then y :: insertByDate x rest else x :: y :: rest

/-- Stable sort of a bucket by ascending date (model of `list.sort(key=lambda
x: x[0])`, which is stable). -/
def sortByDate : List (Int × Nat) → List (Int × Nat)
  | [] => []
  | x :: rest => insertByDate x (sortByDate rest)

/-- The index over a processed ledger, as a function from key to its sorted
bucket; a key is "present" in the `defaultdict` exactly when its bucket is
nonempty. -/
def buildIndex (processed : List Entry) (key : IndexKey) : List (Int × Nat) :=
  sortByDate (rawBucket processed key)

/-! ## The matcher -/

/-- The candidate scan inside `find_and_mark`: walk the bucket in order, skip
already-matched targets, and return the position of the first candidate whose
absolute day difference from the source date is at most 1. -/
def findTarget (source_date : Int) (targets : List Entry) :
    List (Int × Nat) → Option Nat
  | [] => none
  | (td, ti) :: rest =>
    if (targets.getD ti default).matched then findTarget source_date targets rest
    else if (source_date - td).natAbs ≤ 1 then some ti
    else findTarget source_date targets rest

/-- `find_and_mark`: returns the outcome string together with the updated
source entry and updated target list (the Python function mutates these in
place).  Unparseable source date or absent key yields `'MISSING'` with no
change; an accepted candidate marks both entries `FOUND`/`matched` together. -/
def find_and_mark (source_entry : Entry) (target_indexed_data : IndexKey → List (Int × Nat))
    (target_processed_list : List Entry) : String × Entry × List Entry :=
  match parse_date (source_entry.original_row.getD 0 "") with
  | none => ("MISSING", source_entry, target_processed_list)
  | some source_date =>
    let key := create_index_key source_entry.original_row
    if target_indexed_data key = [] then
      ("MISSING", source_entry, target_processed_list)
    else
      match findTarget source_date target_processed_list (target_indexed_data key) with
      | some ti =>
        ("FOUND", markFound source_entry,
          target_processed_list.set ti (markFound (target_processed_list.getD ti default)))
      | none => ("MISSING", source_entry, target_processed_list)

/-! ## The two-phase orchestrator -/

/-- One matching phase: visit the source positions in order; skip entries
already matched, otherwise run `find_and_mark` and store the updated source
entry and target list (model of the `for ... if not matched:
find_and_mark(...)` loops). -/
def runPhase (idxF : IndexKey → List (Int × Nat)) :
    List Nat → List Entry × List Entry → List Entry × List Entry
  | [], st => st
  | i :: rest, (src, tgt) =>
    let e := src.getD i default
    if e.matched then runPhase idxF rest (src, tgt)
    else
      let r := find_and_mark e idxF tgt
      runPhase idxF rest (src.set i r.2.1, r.2.2)

/-- `reconcile_accounts`: normalize both ledgers, build both indices, run
phase 1 (A against B's index) then phase 2 (B against A's index), and append
each entry's final status to its row. -/
def reconcile_accounts (transactions_a transactions_b : List RawRow) :
    List (List String) × List (List String) :=
  let processed_a := transactions_a.map initEntry
  let processed_b := transactions_b.map initEntry
  let indexed_b := buildIndex processed_b
  let indexed_a := buildIndex processed_a
  let st1 := runPhase indexed_b (List.range processed_a.length) (processed_a, processed_b)
  let st2 := runPhase indexed_a (List.range st1.2.length) (st1.2, st1.1)
  (st2.2.map (fun e => e.original_row ++ [e.status]),
   st2.1.map (fun e => e.original_row ++ [e.status]))

end Reconcile

namespace Reconcile

/-! ## Basic list and entry lemmas -/

theorem markFound_row (e : Entry) : (markFound e).original_row = e.original_row := rfl

theorem set_getD_self (l : List Entry) (i : Nat) :
    l.set i (l.getD i default) = l := by
  induction l generalizing i with
  | nil => rfl
  | cons a t ih =>
    cases i with
    | zero => rfl
    | succ n =>
      rw [List.getD_cons_succ]
      show a :: t.set n (t.getD n default) = a :: t
      rw [ih n]

theorem getD_set_eq (l : List Entry) (i : Nat) (x : Entry) (h : i < l.length) :
    (l.set i x).getD i default = x := by
  induction l generalizing i with
  | nil => simp at h
  | cons a t ih =>
    cases i with
    | zero => rfl
    | succ n =>
      simp only [List.length_cons, Nat.succ_lt_succ_iff] at h
      simpa [List.set, List.getD] using ih n h

theorem getD_set_neq (l : List Entry) (i j : Nat) (x : Entry) (h : j ≠ i) :
    (l.set i x).getD j default = l.getD j default := by
  induction l generalizing i j with
  | nil => rfl
  | cons a t ih =>
    cases i with
    | zero =>
      cases j with
      | zero => exact absurd rfl h
      | succ m => rfl
    | succ n =>
      cases j with
      | zero => rfl
      | succ m =>
        simpa [List.set, List.getD] using ih n m (fun hmn => h (by omega))

theorem countP_set_of_flip (l : List Entry) (i : Nat) (x : Entry)
    (p : Entry → Bool) (hi : i < l.length)
    (hold : p (l.getD i default) = false) (hnew : p x = true) :
    (l.set i x).countP p = l.countP p + 1 := by
  induction l generalizing i with
  | nil => simp at hi
  | cons a t ih =>
    cases i with
    | zero =>
      simp only [List.getD_cons_zero] at hold
      simp [List.set, List.countP_cons, hold, hnew]
    | succ n =>
      simp only [List.length_cons, Nat.succ_lt_succ_iff] at hi
      simp only [List.getD_cons_succ] at hold
      simp [List.set, List.countP_cons, ih n hi hold]
      omega

theorem rows_set_preserved (l : List Entry) (i : Nat) (x : Entry)
    (h : x.original_row = (l.getD i default).original_row) :
    (l.set i x).map Entry.original_row = l.map Entry.original_row := by
  induction l generalizing i with
  | nil => rfl
  | cons a t ih =>
    cases i with
    | zero => simpa [List.set] using h
    | succ n => simpa [List.set] using ih n h

theorem getD_map_initEntry (l : List RawRow) (i : Nat) :
    ((l.map initEntry).getD i default).matched = false ∧
    ((l.map initEntry).getD i default).status = "MISSING" := by
  induction l generalizing i with
  | nil => exact ⟨rfl, rfl⟩
  | cons a t ih =>
    cases i with
    | zero => exact ⟨rfl, rfl⟩
    | succ n => simpa [List.getD] using ih n

/-! ## `findTarget` characterization -/

theorem findTarget_mem (sd : Int) (tgt : List Entry) (b : List (Int × Nat)) (ti : Nat)
    (h : findTarget sd tgt b = some ti) :
    ∃ td, (td, ti) ∈ b ∧ (tgt.getD ti default).matched = false ∧
      (sd - td).natAbs ≤ 1 := by
  induction b with
  | nil => simp [findTarget] at h
  | cons p rest ih =>
    obtain ⟨td, tj⟩ := p
    by_cases hm : (tgt.getD tj default).matched
    · simp only [findTarget, hm, if_true] at h
      obtain ⟨td', hmem, hrest⟩ := ih h
      exact ⟨td', List.mem_cons_of_mem _ hmem, hrest⟩
    · simp only [findTarget, hm, if_false, Bool.false_eq_true] at h
      by_cases hd : (sd - td).natAbs ≤ 1
      · simp only [hd, if_true, Option.some.injEq] at h
        subst h
        exact ⟨td, List.mem_cons_self _ _, by simpa using hm, hd⟩
      · simp only [hd, if_false] at h
        obtain ⟨td', hmem, hrest⟩ := ih h
        exact ⟨td', List.mem_cons_of_mem _ hmem, hrest⟩

theorem findTarget_eq_none_iff (sd : Int) (tgt : List Entry) (b : List (Int × Nat)) :
    findTarget sd tgt b = none ↔
      ∀ p ∈ b, (tgt.getD p.2 default).matched = true ∨ 1 < (sd - p.1).natAbs := by
  induction b with
  | nil => simp [findTarget]
  | cons p rest ih =>
    obtain ⟨td, tj⟩ := p
    by_cases hm : (tgt.getD tj default).matched
    · simp only [findTarget, hm, if_true]
      rw [ih]
      constructor
      · intro h q hq
        rcases List.mem_cons.mp hq with hq | hq
        · left; rw [hq]; exact hm
        · exact h q hq
      · intro h q hq
        exact h q (List.mem_cons_of_mem _ hq)
    · by_cases hd : (sd - td).natAbs ≤ 1
      · simp only [findTarget, hm, if_false, Bool.false_eq_true, hd, if_true]
        constructor
        · intro h; exact absurd h (by simp)
        · intro h
          rcases h (td, tj) (List.mem_cons_self _ _) with h1 | h1
          · exact absurd h1 (by simpa using hm)
          · omega
      · simp only [findTarget, hm, if_false, Bool.false_eq_true, hd]
        rw [ih]
        constructor
        · intro h q hq
          rcases List.mem_cons.mp hq with hq | hq
          · right; rw [hq]; omega
          · exact h q hq
        · intro h q hq
          exact h q (List.mem_cons_of_mem _ hq)

theorem findTarget_first (sd : Int) (tgt : List Entry) (b : List (Int × Nat)) (ti : Nat)
    (h : findTarget sd tgt b = some ti) :
    ∃ l1 td l2, b = l1 ++ (td, ti) :: l2 ∧
      (∀ p ∈ l1, (tgt.getD p.2 default).matched = true ∨ 1 < (sd - p.1).natAbs) ∧
      (tgt.getD ti default).matched = false ∧ (sd - td).natAbs ≤ 1 := by
  induction b with
  | nil => simp [findTarget] at h
  | cons p rest ih =>
    obtain ⟨td, tj⟩ := p
    by_cases hm : (tgt.getD tj default).matched
    · simp only [findTarget, hm, if_true] at h
      obtain ⟨l1, td', l2, hb, hrej, hrest⟩ := ih h
      exact ⟨(td, tj) :: l1, td', l2, by rw [hb]; rfl, by
        intro q hq
        rcases List.mem_cons.mp hq with hq | hq
        · left; rw [hq]; exact hm
        · exact hrej q hq, hrest⟩
    · by_cases hd : (sd - td).natAbs ≤ 1
      · simp only [findTarget, hm, if_false, Bool.false_eq_true, hd, if_true,
          Option.some.injEq] at h
        subst h
        exact ⟨[], td, rest, rfl, by simp, by simpa using hm, hd⟩
      · simp only [findTarget, hm, if_false, Bool.false_eq_true, hd, if_false] at h
        obtain ⟨l1, td', l2, hb, hrej, hrest⟩ := ih h
        exact ⟨(td, tj) :: l1, td', l2, by rw [hb]; rfl, by
          intro q hq
          rcases List.mem_cons.mp hq with hq | hq
          · right; rw [hq]; omega
          · exact hrej q hq, hrest⟩

theorem bool_neg_true {b : Bool} (h : b = false) : ¬(b = true) := by
  rw [h]; exact Bool.false_ne_true

theorem bool_false_of_not {b : Bool} (h : ¬(b = true)) : b = false := by
  cases b
  · rfl
  · exact absurd rfl h

theorem bool_bnot_true {b : Bool} (h : b = false) : (!b) = true := by
  rw [h]; rfl

theorem bool_bnot_false {b : Bool} (h : b = true) : ¬((!b) = true) := by
  rw [h]; exact Bool.false_ne_true

theorem findTarget_cons (sd : Int) (tgt : List Entry) (td : Int) (ti : Nat)
    (rest : List (Int × Nat)) :
    findTarget sd tgt ((td, ti) :: rest) =
      if (tgt.getD ti default).matched then findTarget sd tgt rest
      else if (sd - td).natAbs ≤ 1 then some ti
      else findTarget sd tgt rest := rfl

theorem findTarget_of_first (sd : Int) (tgt : List Entry) (l1 l2 : List (Int × Nat))
    (td : Int) (ti : Nat)
    (hrej : ∀ p ∈ l1, (tgt.getD p.2 default).matched = true ∨ 1 < (sd - p.1).natAbs)
    (hm : (tgt.getD ti default).matched = false) (hd : (sd - td).natAbs ≤ 1) :
    findTarget sd tgt (l1 ++ (td, ti) :: l2) = some ti := by
  induction l1 with
  | nil =>
    rw [List.nil_append, findTarget_cons, if_neg (bool_neg_true hm), if_pos hd]
  | cons p rest ih =>
    obtain ⟨pd, pj⟩ := p
    have ih' := ih (fun q hq => hrej q (List.mem_cons_of_mem _ hq))
    rcases hrej (pd, pj) (List.mem_cons_self _ _) with h1 | h1
    · rw [List.cons_append, findTarget_cons, if_pos h1]
      exact ih'
    · have hnle : ¬ (sd - pd).natAbs ≤ 1 := by omega
      by_cases hmp : (tgt.getD pj default).matched
      · rw [List.cons_append, findTarget_cons, if_pos hmp]
        exact ih'
      · rw [List.cons_append, findTarget_cons, if_neg hmp, if_neg hnle]
        exact ih'

theorem findTarget_filter (sd : Int) (tgt tgt0 : List Entry) (b : List (Int × Nat))
    (hmono : ∀ j, (tgt0.getD j default).matched = true →
      (tgt.getD j default).matched = true) :
    findTarget sd tgt (b.filter (fun p => !(tgt0.getD p.2 default).matched)) =
      findTarget sd tgt b := by
  induction b with
  | nil => rfl
  | cons p rest ih =>
    obtain ⟨td, tj⟩ := p
    by_cases h0 : (tgt0.getD tj default).matched
    · have hmt := hmono tj h0
      rw [List.filter_cons, if_neg (bool_bnot_false h0), ih, findTarget_cons, if_pos hmt]
    · rw [List.filter_cons, if_pos (bool_bnot_true (bool_false_of_not h0)), findTarget_cons, findTarget_cons]
      by_cases hmt : (tgt.getD tj default).matched
      · rw [if_pos hmt, if_pos hmt, ih]
      · rw [if_neg hmt, if_neg hmt]
        by_cases hd : (sd - td).natAbs ≤ 1
        · rw [if_pos hd, if_pos hd]
        · rw [if_neg hd, if_neg hd, ih]

end Reconcile

namespace Reconcile

/-! ## `find_and_mark` characterization -/

/-- The target position `find_and_mark` would accept (if any): `none` when the
source date is unparseable or the key's bucket is empty, else the result of the
bucket scan. -/
def chosenTarget (e : Entry) (f : IndexKey → List (Int × Nat)) (tgt : List Entry) :
    Option Nat :=
  match parse_date (e.original_row.getD 0 "") with
  | none => none
  | some sd =>
    if f (create_index_key e.original_row) = [] then none
    else findTarget sd tgt (f (create_index_key e.original_row))

theorem find_and_mark_chosen (e : Entry) (f : IndexKey → List (Int × Nat))
    (tgt : List Entry) :
    find_and_mark e f tgt =
      match chosenTarget e f tgt with
      | some ti => ("FOUND", markFound e, tgt.set ti (markFound (tgt.getD ti default)))
      | none => ("MISSING", e, tgt) := by
  unfold find_and_mark chosenTarget
  cases hp : parse_date (e.original_row.getD 0 "") with
  | none => rfl
  | some sd =>
    dsimp only
    by_cases hb : f (create_index_key e.original_row) = []
    · rw [if_pos hb, if_pos hb]
    · rw [if_neg hb, if_neg hb]

theorem find_and_mark_of_chosen_none (e : Entry) (f : IndexKey → List (Int × Nat))
    (tgt : List Entry) (h : chosenTarget e f tgt = none) :
    find_and_mark e f tgt = ("MISSING", e, tgt) := by
  rw [find_and_mark_chosen, h]

theorem find_and_mark_of_chosen_some (e : Entry) (f : IndexKey → List (Int × Nat))
    (tgt : List Entry) (ti : Nat) (h : chosenTarget e f tgt = some ti) :
    find_and_mark e f tgt =
      ("FOUND", markFound e, tgt.set ti (markFound (tgt.getD ti default))) := by
  rw [find_and_mark_chosen, h]

theorem chosenTarget_none_of_no_date (e : Entry) (f : IndexKey → List (Int × Nat))
    (tgt : List Entry) (h : parse_date (e.original_row.getD 0 "") = none) :
    chosenTarget e f tgt = none := by
  unfold chosenTarget
  rw [h]

theorem chosenTarget_spec (e : Entry) (f : IndexKey → List (Int × Nat))
    (tgt : List Entry) (ti : Nat) (h : chosenTarget e f tgt = some ti) :
    (tgt.getD ti default).matched = false ∧
      ∃ td, (td, ti) ∈ f (create_index_key e.original_row) := by
  unfold chosenTarget at h
  cases hp : parse_date (e.original_row.getD 0 "") with
  | none => rw [hp] at h; exact absurd h (by simp)
  | some sd =>
    rw [hp] at h
    dsimp only at h
    by_cases hb : f (create_index_key e.original_row) = []
    · rw [if_pos hb] at h; exact absurd h (by simp)
    · rw [if_neg hb] at h
      obtain ⟨td, hmem, hum, _⟩ := findTarget_mem sd tgt _ ti h
      exact ⟨hum, td, hmem⟩

/-! ## `runPhase` step lemma and preservation properties -/

theorem runPhase_cons (f : IndexKey → List (Int × Nat)) (i : Nat) (rest : List Nat)
    (src tgt : List Entry) :
    runPhase f (i :: rest) (src, tgt) =
      if (src.getD i default).matched then runPhase f rest (src, tgt)
      else runPhase f rest
        (src.set i (find_and_mark (src.getD i default) f tgt).2.1,
         (find_and_mark (src.getD i default) f tgt).2.2) := rfl

theorem fam_src_row (e : Entry) (f : IndexKey → List (Int × Nat)) (tgt : List Entry) :
    (find_and_mark e f tgt).2.1.original_row = e.original_row := by
  rw [find_and_mark_chosen]
  cases chosenTarget e f tgt with
  | none => rfl
  | some ti => rfl

theorem fam_tgt_rows (e : Entry) (f : IndexKey → List (Int × Nat)) (tgt : List Entry) :
    (find_and_mark e f tgt).2.2.map Entry.original_row = tgt.map Entry.original_row := by
  rw [find_and_mark_chosen]
  cases chosenTarget e f tgt with
  | none => rfl
  | some ti => exact rows_set_preserved tgt ti _ rfl

theorem runPhase_rows (f : IndexKey → List (Int × Nat)) (ps : List Nat) :
    ∀ src tgt : List Entry,
    (runPhase f ps (src, tgt)).1.map Entry.original_row = src.map Entry.original_row ∧
    (runPhase f ps (src, tgt)).2.map Entry.original_row = tgt.map Entry.original_row := by
  induction ps with
  | nil => intro src tgt; exact ⟨rfl, rfl⟩
  | cons i rest ih =>
    intro src tgt
    rw [runPhase_cons]
    by_cases hm : (src.getD i default).matched
    · rw [if_pos hm]; exact ih src tgt
    · rw [if_neg hm]
      obtain ⟨h1, h2⟩ := ih (src.set i (find_and_mark (src.getD i default) f tgt).2.1)
        (find_and_mark (src.getD i default) f tgt).2.2
      refine ⟨?_, ?_⟩
      · rw [h1, rows_set_preserved _ _ _ (fam_src_row _ f tgt)]
      · rw [h2, fam_tgt_rows]

theorem runPhase_lengths (f : IndexKey → List (Int × Nat)) (ps : List Nat)
    (src tgt : List Entry) :
    (runPhase f ps (src, tgt)).1.length = src.length ∧
    (runPhase f ps (src, tgt)).2.length = tgt.length := by
  obtain ⟨h1, h2⟩ := runPhase_rows f ps src tgt
  constructor
  · have := congrArg List.length h1; simpa using this
  · have := congrArg List.length h2; simpa using this

theorem inv_default :
    ((default : Entry).matched = true ↔ (default : Entry).status = "FOUND") := by
  constructor
  · intro h; exact absurd h (by simp [default])
  · intro h; exact absurd h (by simp [default])

theorem getD_mem_or_default (l : List Entry) (i : Nat) :
    l.getD i default ∈ l ∨ l.getD i default = default := by
  induction l generalizing i with
  | nil => right; rfl
  | cons a t ih =>
    cases i with
    | zero => left; exact List.mem_cons_self _ _
    | succ n =>
      rw [List.getD_cons_succ]
      rcases ih n with h | h
      · left; exact List.mem_cons_of_mem _ h
      · right; exact h

theorem runPhase_statusOK (f : IndexKey → List (Int × Nat)) (ps : List Nat) :
    ∀ src tgt : List Entry,
    (∀ a ∈ src, a.status = "FOUND" ∨ a.status = "MISSING") →
    (∀ a ∈ tgt, a.status = "FOUND" ∨ a.status = "MISSING") →
    (∀ a ∈ (runPhase f ps (src, tgt)).1, a.status = "FOUND" ∨ a.status = "MISSING") ∧
    (∀ a ∈ (runPhase f ps (src, tgt)).2, a.status = "FOUND" ∨ a.status = "MISSING") := by
  induction ps with
  | nil => intro src tgt hs ht; exact ⟨hs, ht⟩
  | cons i rest ih =>
    intro src tgt hs ht
    rw [runPhase_cons]
    by_cases hm : (src.getD i default).matched
    · rw [if_pos hm]; exact ih src tgt hs ht
    · rw [if_neg hm]
      cases hc : chosenTarget (src.getD i default) f tgt with
      | none =>
        rw [find_and_mark_of_chosen_none _ _ _ hc]
        apply ih
        · intro a ha
          rcases List.mem_or_eq_of_mem_set ha with h | h
          · exact hs a h
          · subst h
            rcases getD_mem_or_default src i with h | h
            · exact hs _ h
            · rw [h]; right; rfl
        · exact ht
      | some ti =>
        rw [find_and_mark_of_chosen_some _ _ _ _ hc]
        apply ih
        · intro a ha
          rcases List.mem_or_eq_of_mem_set ha with h | h
          · exact hs a h
          · subst h; left; rfl
        · intro a ha
          rcases List.mem_or_eq_of_mem_set ha with h | h
          · exact ht a h
          · subst h; left; rfl

theorem runPhase_inv (f : IndexKey → List (Int × Nat)) (ps : List Nat) :
    ∀ src tgt : List Entry,
    (∀ a ∈ src, (a.matched = true ↔ a.status = "FOUND")) →
    (∀ a ∈ tgt, (a.matched = true ↔ a.status = "FOUND")) →
    (∀ a ∈ (runPhase f ps (src, tgt)).1, (a.matched = true ↔ a.status = "FOUND")) ∧
    (∀ a ∈ (runPhase f ps (src, tgt)).2, (a.matched = true ↔ a.status = "FOUND")) := by
  induction ps with
  | nil => intro src tgt hs ht; exact ⟨hs, ht⟩
  | cons i rest ih =>
    intro src tgt hs ht
    rw [runPhase_cons]
    by_cases hm : (src.getD i default).matched
    · rw [if_pos hm]; exact ih src tgt hs ht
    · rw [if_neg hm]
      cases hc : chosenTarget (src.getD i default) f tgt with
      | none =>
        rw [find_and_mark_of_chosen_none _ _ _ hc]
        apply ih
        · intro a ha
          rcases List.mem_or_eq_of_mem_set ha with h | h
          · exact hs a h
          · subst h
            rcases getD_mem_or_default src i with h | h
            · exact hs _ h
            · rw [h]; exact inv_default
        · exact ht
      | some ti =>
        rw [find_and_mark_of_chosen_some _ _ _ _ hc]
        apply ih
        · intro a ha
          rcases List.mem_or_eq_of_mem_set ha with h | h
          · exact hs a h
          · subst h
            constructor <;> intro _ <;> rfl
        · intro a ha
          rcases List.mem_or_eq_of_mem_set ha with h | h
          · exact ht a h
          · subst h
            constructor <;> intro _ <;> rfl

end Reconcile

namespace Reconcile

/-- Matched entries are frozen: if an entry is already matched at the start of
a phase, the phase leaves it exactly as it is (it is neither revisited as a
source nor acceptable as a target). -/
theorem runPhase_mono (f : IndexKey → List (Int × Nat)) (ps : List Nat) :
    ∀ src tgt : List Entry,
    (∀ i, (src.getD i default).matched = true →
      (runPhase f ps (src, tgt)).1.getD i default = src.getD i default) ∧
    (∀ j, (tgt.getD j default).matched = true →
      (runPhase f ps (src, tgt)).2.getD j default = tgt.getD j default) := by
  induction ps with
  | nil => intro src tgt; exact ⟨fun _ _ => rfl, fun _ _ => rfl⟩
  | cons i rest ih =>
    intro src tgt
    rw [runPhase_cons]
    by_cases hm : (src.getD i default).matched
    · rw [if_pos hm]; exact ih src tgt
    · rw [if_neg hm]
      cases hc : chosenTarget (src.getD i default) f tgt with
      | none =>
        rw [find_and_mark_of_chosen_none _ _ _ hc]
        rw [set_getD_self]
        exact ih src tgt
      | some ti =>
        rw [find_and_mark_of_chosen_some _ _ _ _ hc]
        obtain ⟨htm, _⟩ := chosenTarget_spec _ _ _ _ hc
        obtain ⟨ihs, iht⟩ := ih (src.set i (markFound (src.getD i default)))
          (tgt.set ti (markFound (tgt.getD ti default)))
        constructor
        · intro i0 hmi0
          have hne : i0 ≠ i := by
            intro hEq; rw [hEq] at hmi0; rw [hmi0] at hm; exact hm rfl
          have heq := getD_set_neq src i i0 (markFound (src.getD i default)) hne
          rw [← heq] at hmi0 ⊢
          exact ihs i0 hmi0
        · intro j hmj
          have hne : j ≠ ti := by
            intro hEq
            rw [hEq, htm] at hmj
            exact absurd hmj (by simp)
          have heq := getD_set_neq tgt ti j (markFound (tgt.getD ti default)) hne
          rw [← heq] at hmj ⊢
          exact iht j hmj

/-- A source entry whose date does not parse is never modified by a phase. -/
theorem runPhase_src_nodate (f : IndexKey → List (Int × Nat)) (ps : List Nat) :
    ∀ (src tgt : List Entry) (i : Nat),
    parse_date ((src.getD i default).original_row.getD 0 "") = none →
    (runPhase f ps (src, tgt)).1.getD i default = src.getD i default := by
  induction ps with
  | nil => intro src tgt i _; rfl
  | cons p rest ih =>
    intro src tgt i hd
    rw [runPhase_cons]
    by_cases hm : (src.getD p default).matched
    · rw [if_pos hm]; exact ih src tgt i hd
    · rw [if_neg hm]
      cases hc : chosenTarget (src.getD p default) f tgt with
      | none =>
        rw [find_and_mark_of_chosen_none _ _ _ hc, set_getD_self]
        exact ih src tgt i hd
      | some ti =>
        rw [find_and_mark_of_chosen_some _ _ _ _ hc]
        have hne : i ≠ p := by
          intro hEq
          rw [hEq] at hd
          rw [chosenTarget_none_of_no_date _ f tgt hd] at hc
          exact absurd hc (by simp)
        have heq := getD_set_neq src p i (markFound (src.getD p default)) hne
        rw [← heq] at hd
        rw [ih _ _ i hd, heq]

/-- A target position that occurs in no bucket of the index is never modified
by a phase. -/
theorem runPhase_tgt_unindexed (f : IndexKey → List (Int × Nat)) (ps : List Nat) :
    ∀ (src tgt : List Entry) (j : Nat),
    (∀ k d, (d, j) ∉ f k) →
    (runPhase f ps (src, tgt)).2.getD j default = tgt.getD j default := by
  induction ps with
  | nil => intro src tgt j _; rfl
  | cons p rest ih =>
    intro src tgt j hj
    rw [runPhase_cons]
    by_cases hm : (src.getD p default).matched
    · rw [if_pos hm]; exact ih src tgt j hj
    · rw [if_neg hm]
      cases hc : chosenTarget (src.getD p default) f tgt with
      | none =>
        rw [find_and_mark_of_chosen_none _ _ _ hc, set_getD_self]
        exact ih src tgt j hj
      | some ti =>
        rw [find_and_mark_of_chosen_some _ _ _ _ hc]
        obtain ⟨_, td, hmem⟩ := chosenTarget_spec _ _ _ _ hc
        have hne : j ≠ ti := by
          intro hEq
          rw [hEq] at hj
          exact hj _ td hmem
        have heq := getD_set_neq tgt ti j (markFound (tgt.getD ti default)) hne
        rw [ih _ _ j hj, heq]

/-- Each phase step marks a source and a target together, so the number of
matched entries grows by the same amount on both sides. -/
theorem runPhase_count (f : IndexKey → List (Int × Nat)) (ps : List Nat) :
    ∀ src tgt : List Entry,
    (∀ k p, p ∈ f k → p.2 < tgt.length) →
    (∀ i ∈ ps, i < src.length) →
    (runPhase f ps (src, tgt)).1.countP (fun e => e.matched) +
      tgt.countP (fun e => e.matched) =
    src.countP (fun e => e.matched) +
      (runPhase f ps (src, tgt)).2.countP (fun e => e.matched) := by
  induction ps with
  | nil => intro src tgt _ _; rfl
  | cons i rest ih =>
    intro src tgt hb hps
    rw [runPhase_cons]
    by_cases hm : (src.getD i default).matched
    · rw [if_pos hm]
      exact ih src tgt hb (fun p hp => hps p (List.mem_cons_of_mem _ hp))
    · rw [if_neg hm]
      cases hc : chosenTarget (src.getD i default) f tgt with
      | none =>
        rw [find_and_mark_of_chosen_none _ _ _ hc, set_getD_self]
        exact ih src tgt hb (fun p hp => hps p (List.mem_cons_of_mem _ hp))
      | some ti =>
        rw [find_and_mark_of_chosen_some _ _ _ _ hc]
        dsimp only
        obtain ⟨htm, td, hmem⟩ := chosenTarget_spec _ _ _ _ hc
        have hti : ti < tgt.length := hb _ _ hmem
        have hi : i < src.length := hps i (List.mem_cons_self _ _)
        have hsrc1 : (src.set i (markFound (src.getD i default))).countP
            (fun e => e.matched) = src.countP (fun e => e.matched) + 1 :=
          countP_set_of_flip src i _ _ hi (bool_false_of_not hm) rfl
        have htgt1 : (tgt.set ti (markFound (tgt.getD ti default))).countP
            (fun e => e.matched) = tgt.countP (fun e => e.matched) + 1 :=
          countP_set_of_flip tgt ti _ _ hti htm rfl
        have ih' := ih (src.set i (markFound (src.getD i default)))
          (tgt.set ti (markFound (tgt.getD ti default)))
          (by intro k p hp; rw [List.length_set]; exact hb k p hp)
          (by intro p hp; rw [List.length_set]
              exact hps p (List.mem_cons_of_mem _ hp))
        rw [hsrc1, htgt1] at ih'
        omega

end Reconcile

namespace Reconcile

/-! ## Index lemmas: membership, sortedness, stability -/

theorem rawBucketAux_cons (k : IndexKey) (n : Nat) (e : Entry) (rest : List Entry) :
    rawBucketAux k n (e :: rest) =
      match parse_date (e.original_row.getD 0 "") with
      | none => rawBucketAux k (n + 1) rest
      | some d =>
        if create_index_key e.original_row = k then
          (d, n) :: rawBucketAux k (n + 1) rest
        else rawBucketAux k (n + 1) rest := rfl

theorem rawBucketAux_mem (k : IndexKey) (l : List Entry) :
    ∀ (n : Nat) (d : Int) (i : Nat),
    ((d, i) ∈ rawBucketAux k n l ↔
      ∃ j, j < l.length ∧ i = n + j ∧
        parse_date ((l.getD j default).original_row.getD 0 "") = some d ∧
        create_index_key (l.getD j default).original_row = k) := by
  induction l with
  | nil => intro n d i; simp [rawBucketAux]
  | cons e rest ih =>
    intro n d i
    rw [rawBucketAux_cons]
    cases hp : parse_date (e.original_row.getD 0 "") with
    | none =>
      rw [ih (n + 1) d i]
      constructor
      · rintro ⟨j, hj, hi, hp2, hk⟩
        refine ⟨j + 1, by simpa using hj, by omega, ?_, ?_⟩
        · rw [List.getD_cons_succ]; exact hp2
        · rw [List.getD_cons_succ]; exact hk
      · rintro ⟨j, hj, hi, hp2, hk⟩
        cases j with
        | zero =>
          rw [List.getD_cons_zero] at hp2
          rw [hp] at hp2
          exact absurd hp2 (by simp)
        | succ j' =>
          rw [List.getD_cons_succ] at hp2 hk
          exact ⟨j', by simpa using hj, by omega, hp2, hk⟩
    | some d' =>
      dsimp only
      by_cases hk0 : create_index_key e.original_row = k
      · rw [if_pos hk0]
        constructor
        · intro hmem
          rcases List.mem_cons.mp hmem with heq | hmem'
          · have hd : d = d' := congrArg Prod.fst heq
            have hi0 : i = n := congrArg Prod.snd heq
            refine ⟨0, by simp, by omega, ?_, ?_⟩
            · rw [List.getD_cons_zero, hp, hd]
            · rw [List.getD_cons_zero]; exact hk0
          · obtain ⟨j, hj, hi, hp2, hk2⟩ := (ih (n + 1) d i).mp hmem'
            refine ⟨j + 1, by simpa using hj, by omega, ?_, ?_⟩
            · rw [List.getD_cons_succ]; exact hp2
            · rw [List.getD_cons_succ]; exact hk2
        · rintro ⟨j, hj, hi, hp2, hk2⟩
          cases j with
          | zero =>
            rw [List.getD_cons_zero] at hp2
            rw [hp] at hp2
            have hd : d' = d := Option.some.inj hp2
            have hi0 : i = n := by omega
            exact List.mem_cons.mpr (Or.inl (by rw [hd, hi0]))
          | succ j' =>
            rw [List.getD_cons_succ] at hp2 hk2
            exact List.mem_cons.mpr (Or.inr
              ((ih (n + 1) d i).mpr ⟨j', by simpa using hj, by omega, hp2, hk2⟩))
      · rw [if_neg hk0]
        rw [ih (n + 1) d i]
        constructor
        · rintro ⟨j, hj, hi, hp2, hk2⟩
          refine ⟨j + 1, by simpa using hj, by omega, ?_, ?_⟩
          · rw [List.getD_cons_succ]; exact hp2
          · rw [List.getD_cons_succ]; exact hk2
        · rintro ⟨j, hj, hi, hp2, hk2⟩
          cases j with
          | zero =>
            rw [List.getD_cons_zero] at hk2
            exact absurd hk2 hk0
          | succ j' =>
            rw [List.getD_cons_succ] at hp2 hk2
            exact ⟨j', by simpa using hj, by omega, hp2, hk2⟩

theorem rawBucket_mem (l : List Entry) (k : IndexKey) (d : Int) (i : Nat) :
    (d, i) ∈ rawBucket l k ↔
      i < l.length ∧
      parse_date ((l.getD i default).original_row.getD 0 "") = some d ∧
      create_index_key (l.getD i default).original_row = k := by
  unfold rawBucket
  rw [rawBucketAux_mem]
  constructor
  · rintro ⟨j, hj, hi, hp, hk⟩
    have : i = j := by omega
    subst this
    exact ⟨hj, hp, hk⟩
  · rintro ⟨hi, hp, hk⟩
    exact ⟨i, hi, by omega, hp, hk⟩

theorem mem_insertByDate (x y : Int × Nat) (l : List (Int × Nat)) :
    y ∈ insertByDate x l ↔ y = x ∨ y ∈ l := by
  induction l with
  | nil => simp [insertByDate]
  | cons z rest ih =>
    unfold insertByDate
    by_cases h : z.1 < x.1
    · rw [if_pos h]
      simp only [List.mem_cons, ih]
      tauto
    · rw [if_neg h]
      simp only [List.mem_cons]

theorem mem_sortByDate (y : Int × Nat) (l : List (Int × Nat)) :
    y ∈ sortByDate l ↔ y ∈ l := by
  induction l with
  | nil => simp [sortByDate]
  | cons x rest ih =>
    unfold sortByDate
    rw [mem_insertByDate, ih]
    simp [List.mem_cons]

theorem sorted_insertByDate (x : Int × Nat) (l : List (Int × Nat))
    (h : l.Pairwise (fun p q => p.1 ≤ q.1)) :
    (insertByDate x l).Pairwise (fun p q => p.1 ≤ q.1) := by
  induction l with
  | nil => simp [insertByDate]
  | cons y rest ih =>
    rw [List.pairwise_cons] at h
    obtain ⟨hy, hrest⟩ := h
    unfold insertByDate
    by_cases hlt : y.1 < x.1
    · rw [if_pos hlt]
      rw [List.pairwise_cons]
      constructor
      · intro z hz
        rcases (mem_insertByDate x z rest).mp hz with hzx | hzr
        · rw [hzx]; omega
        · exact hy z hzr
      · exact ih hrest
    · rw [if_neg hlt]
      rw [List.pairwise_cons]
      constructor
      · intro z hz
        rcases List.mem_cons.mp hz with hzy | hzr
        · rw [hzy]; omega
        · have := hy z hzr; omega
      · rw [List.pairwise_cons]
        exact ⟨hy, hrest⟩

theorem sorted_sortByDate (l : List (Int × Nat)) :
    (sortByDate l).Pairwise (fun p q => p.1 ≤ q.1) := by
  induction l with
  | nil => simp [sortByDate]
  | cons x rest ih => exact sorted_insertByDate x _ ih

theorem insertByDate_eq_cons (x : Int × Nat) (l : List (Int × Nat))
    (h : ∀ y ∈ l, ¬(y.1 < x.1)) : insertByDate x l = x :: l := by
  cases l with
  | nil => rfl
  | cons y rest =>
    unfold insertByDate
    rw [if_neg (h y (List.mem_cons_self _ _))]

theorem insertByDate_cons (x y : Int × Nat) (l : List (Int × Nat)) :
    insertByDate x (y :: l) =
      if y.1 < x.1 then y :: insertByDate x l else x :: y :: l := rfl

theorem filter_insertByDate (p : Int × Nat → Bool) (x : Int × Nat)
    (l : List (Int × Nat)) (hs : l.Pairwise (fun a b => a.1 ≤ b.1)) :
    (insertByDate x l).filter p =
      if p x then insertByDate x (l.filter p) else l.filter p := by
  induction l with
  | nil =>
    show List.filter p [x] = _
    rw [List.filter_cons]
    by_cases hpx : p x = true
    · rw [if_pos hpx, if_pos hpx]
      rfl
    · rw [if_neg hpx, if_neg hpx]
  | cons y rest ih =>
    rw [List.pairwise_cons] at hs
    obtain ⟨hy, hrest⟩ := hs
    rw [insertByDate_cons]
    by_cases hlt : y.1 < x.1
    · rw [if_pos hlt, List.filter_cons, List.filter_cons, ih hrest]
      by_cases hpx : p x = true
      · rw [if_pos hpx, if_pos hpx]
        by_cases hpy : p y = true
        · rw [if_pos hpy, if_pos hpy, insertByDate_cons, if_pos hlt]
        · rw [if_neg hpy, if_neg hpy]
      · rw [if_neg hpx, if_neg hpx]
    · rw [if_neg hlt, List.filter_cons]
      by_cases hpx : p x = true
      · rw [if_pos hpx, if_pos hpx]
        rw [insertByDate_eq_cons]
        intro z hz
        have hz' := List.mem_of_mem_filter hz
        rcases List.mem_cons.mp hz' with hzy | hzr
        · rw [hzy]; exact hlt
        · have := hy z hzr
          omega
      · rw [if_neg hpx, if_neg hpx]

theorem filter_sortByDate (p : Int × Nat → Bool) (l : List (Int × Nat)) :
    (sortByDate l).filter p = sortByDate (l.filter p) := by
  induction l with
  | nil => rfl
  | cons x rest ih =>
    show (insertByDate x (sortByDate rest)).filter p = sortByDate ((x :: rest).filter p)
    rw [filter_insertByDate p x _ (sorted_sortByDate rest), List.filter_cons]
    by_cases hpx : p x = true
    · rw [if_pos hpx, if_pos hpx, ih]
      rfl
    · rw [if_neg hpx, if_neg hpx, ih]

theorem sortByDate_all_eq (l : List (Int × Nat)) (d : Int)
    (h : ∀ x ∈ l, x.1 = d) : sortByDate l = l := by
  induction l with
  | nil => rfl
  | cons x rest ih =>
    show insertByDate x (sortByDate rest) = x :: rest
    rw [ih (fun y hy => h y (List.mem_cons_of_mem _ hy))]
    apply insertByDate_eq_cons
    intro y hy
    rw [h y (List.mem_cons_of_mem _ hy), h x (List.mem_cons_self _ _)]
    omega

theorem buildIndex_mem (l : List Entry) (k : IndexKey) (d : Int) (i : Nat) :
    (d, i) ∈ buildIndex l k ↔
      i < l.length ∧
      parse_date ((l.getD i default).original_row.getD 0 "") = some d ∧
      create_index_key (l.getD i default).original_row = k := by
  unfold buildIndex
  rw [mem_sortByDate, rawBucket_mem]

theorem buildIndex_pos_lt (l : List Entry) (k : IndexKey) :
    ∀ p ∈ buildIndex l k, p.2 < l.length := by
  rintro ⟨d, i⟩ hp
  exact ((buildIndex_mem l k d i).mp hp).1

theorem buildIndex_sorted (l : List Entry) (k : IndexKey) :
    (buildIndex l k).Pairwise (fun p q => p.1 ≤ q.1) :=
  sorted_sortByDate _

theorem buildIndex_stable (l : List Entry) (k : IndexKey) (d : Int) :
    (buildIndex l k).filter (fun p => p.1 == d) =
      (rawBucket l k).filter (fun p => p.1 == d) := by
  unfold buildIndex
  rw [filter_sortByDate]
  apply sortByDate_all_eq _ d
  intro x hx
  exact eq_of_beq (List.mem_filter.mp hx).2

theorem rawBucketAux_rows_congr (k : IndexKey) :
    ∀ (l1 l2 : List Entry) (n : Nat),
    l1.map Entry.original_row = l2.map Entry.original_row →
    rawBucketAux k n l1 = rawBucketAux k n l2 := by
  intro l1
  induction l1 with
  | nil =>
    intro l2 n h
    cases l2 with
    | nil => rfl
    | cons b t => exact absurd h (by simp)
  | cons a t ih =>
    intro l2 n h
    cases l2 with
    | nil => exact absurd h (by simp)
    | cons b t2 =>
      simp only [List.map_cons, List.cons.injEq] at h
      obtain ⟨hrow, hrest⟩ := h
      rw [rawBucketAux_cons, rawBucketAux_cons, hrow, ih t2 (n + 1) hrest]

theorem buildIndex_rows_congr (l1 l2 : List Entry)
    (h : l1.map Entry.original_row = l2.map Entry.original_row) :
    buildIndex l1 = buildIndex l2 := by
  funext k
  unfold buildIndex rawBucket
  rw [rawBucketAux_rows_congr k l1 l2 0 h]

end Reconcile

namespace Reconcile

/-! ## Phase-2 index rebuild variant (for the refinement equivalence) -/

/-- Variant of the index-building loop that follows the spec's Phase-2 wording:
entries already `matched` are omitted from the index entirely. -/
def rawBucketUnmatchedAux (key : IndexKey) : Nat → List Entry → List (Int × Nat)
  | _, [] => []
  | i, e :: rest =>
    if e.matched then rawBucketUnmatchedAux key (i + 1) rest
    else
      match parse_date (e.original_row.getD 0 "") with
      | none => rawBucketUnmatchedAux key (i + 1) rest
      | some d =>
        if create_index_key e.original_row = key then
          (d, i) :: rawBucketUnmatchedAux key (i + 1) rest
        else rawBucketUnmatchedAux key (i + 1) rest

/-- The index over a ledger built only from its still-unmatched entries. -/
def buildIndexUnmatched (processed : List Entry) (key : IndexKey) : List (Int × Nat) :=
  sortByDate (rawBucketUnmatchedAux key 0 processed)

/-- Variant of `reconcile_accounts` that rebuilds A's index after Phase 1,
from the then-unmatched A entries only (the spec's description of Phase 2). -/
def reconcile_accounts_rebuilt (transactions_a transactions_b : List RawRow) :
    List (List String) × List (List String) :=
  let processed_a := transactions_a.map initEntry
  let processed_b := transactions_b.map initEntry
  let indexed_b := buildIndex processed_b
  let st1 := runPhase indexed_b (List.range processed_a.length) (processed_a, processed_b)
  let indexed_a := buildIndexUnmatched st1.1
  let st2 := runPhase indexed_a (List.range st1.2.length) (st1.2, st1.1)
  (st2.2.map (fun e => e.original_row ++ [e.status]),
   st2.1.map (fun e => e.original_row ++ [e.status]))

theorem rawBucketUnmatchedAux_cons (key : IndexKey) (n : Nat) (e : Entry)
    (rest : List Entry) :
    rawBucketUnmatchedAux key n (e :: rest) =
      if e.matched then rawBucketUnmatchedAux key (n + 1) rest
      else
        match parse_date (e.original_row.getD 0 "") with
        | none => rawBucketUnmatchedAux key (n + 1) rest
        | some d =>
          if create_index_key e.original_row = key then
            (d, n) :: rawBucketUnmatchedAux key (n + 1) rest
          else rawBucketUnmatchedAux key (n + 1) rest := rfl

theorem rawBucketUnmatchedAux_eq_filter (key : IndexKey) (full : List Entry) :
    ∀ (l : List Entry) (n : Nat),
    (∀ j, j < l.length → l.getD j default = full.getD (n + j) default) →
    rawBucketUnmatchedAux key n l =
      (rawBucketAux key n l).filter (fun p => !(full.getD p.2 default).matched) := by
  intro l
  induction l with
  | nil => intro n _; rfl
  | cons e rest ih =>
    intro n hsuf
    have he : e = full.getD n default := by
      have h0 := hsuf 0 (by simp)
      simpa using h0
    have hrest : ∀ j, j < rest.length → rest.getD j default = full.getD (n + 1 + j) default := by
      intro j hj
      have h1 := hsuf (j + 1) (by simpa using hj)
      rw [List.getD_cons_succ] at h1
      rw [h1]
      congr 1
      omega
    rw [rawBucketUnmatchedAux_cons, rawBucketAux_cons]
    by_cases hm : e.matched
    · rw [if_pos hm, ih (n + 1) hrest]
      cases hp : parse_date (e.original_row.getD 0 "") with
      | none => rfl
      | some d =>
        dsimp only
        by_cases hk : create_index_key e.original_row = key
        · rw [if_pos hk, List.filter_cons,
            if_neg (bool_bnot_false (show (full.getD n default).matched = true by
              rw [← he]; exact hm))]
        · rw [if_neg hk]
    · rw [if_neg hm]
      cases hp : parse_date (e.original_row.getD 0 "") with
      | none =>
        dsimp only
        exact ih (n + 1) hrest
      | some d =>
        dsimp only
        by_cases hk : create_index_key e.original_row = key
        · rw [if_pos hk, if_pos hk, List.filter_cons,
            if_pos (bool_bnot_true (show (full.getD n default).matched = false by
              rw [← he]; exact bool_false_of_not hm))]
          rw [ih (n + 1) hrest]
        · rw [if_neg hk, if_neg hk]
          exact ih (n + 1) hrest

theorem buildIndexUnmatched_eq (l : List Entry) (k : IndexKey) :
    buildIndexUnmatched l k =
      (buildIndex l k).filter (fun p => !(l.getD p.2 default).matched) := by
  unfold buildIndexUnmatched buildIndex rawBucket
  rw [rawBucketUnmatchedAux_eq_filter k l l 0 (fun j hj => by rw [Nat.zero_add]),
    filter_sortByDate]

theorem lt_length_of_matched (l : List Entry) (j : Nat)
    (h : (l.getD j default).matched = true) : j < l.length := by
  by_contra hle
  push_neg at hle
  rw [List.getD_eq_default _ _ hle] at h
  exact absurd h (by simp [default])

theorem matched_after_set (l : List Entry) (i : Nat) (x : Entry) (j : Nat)
    (hx : x.matched = true) (h : (l.getD j default).matched = true) :
    ((l.set i x).getD j default).matched = true := by
  by_cases hji : j = i
  · subst hji
    rw [getD_set_eq l j x (lt_length_of_matched l j h)]
    exact hx
  · rw [getD_set_neq l i j x hji]
    exact h

theorem chosenTarget_filter_eq (e : Entry) (f f' : IndexKey → List (Int × Nat))
    (tgt tgt0 : List Entry)
    (hf : ∀ k, f' k = (f k).filter (fun p => !(tgt0.getD p.2 default).matched))
    (hmono : ∀ j, (tgt0.getD j default).matched = true →
      (tgt.getD j default).matched = true) :
    chosenTarget e f' tgt = chosenTarget e f tgt := by
  unfold chosenTarget
  cases hp : parse_date (e.original_row.getD 0 "") with
  | none => rfl
  | some sd =>
    dsimp only
    rw [hf (create_index_key e.original_row)]
    by_cases hbe : f (create_index_key e.original_row) = []
    · rw [hbe]
      rfl
    · rw [if_neg hbe]
      by_cases hfe : (f (create_index_key e.original_row)).filter
          (fun p => !(tgt0.getD p.2 default).matched) = []
      · rw [if_pos hfe]
        have hfilter := findTarget_filter sd tgt tgt0
          (f (create_index_key e.original_row)) hmono
        rw [hfe] at hfilter
        exact hfilter
      · rw [if_neg hfe]
        exact findTarget_filter sd tgt tgt0 _ hmono

theorem runPhase_index_filter_eq (f f' : IndexKey → List (Int × Nat))
    (tgt0 : List Entry) (ps : List Nat)
    (hf : ∀ k, f' k = (f k).filter (fun p => !(tgt0.getD p.2 default).matched)) :
    ∀ src tgt : List Entry,
    (∀ j, (tgt0.getD j default).matched = true →
      (tgt.getD j default).matched = true) →
    runPhase f' ps (src, tgt) = runPhase f ps (src, tgt) := by
  induction ps with
  | nil => intro src tgt _; rfl
  | cons i rest ih =>
    intro src tgt hmono
    rw [runPhase_cons, runPhase_cons]
    by_cases hm : (src.getD i default).matched
    · rw [if_pos hm, if_pos hm]
      exact ih src tgt hmono
    · rw [if_neg hm, if_neg hm]
      have hct := chosenTarget_filter_eq (src.getD i default) f f' tgt tgt0 hf hmono
      cases hc : chosenTarget (src.getD i default) f tgt with
      | none =>
        rw [find_and_mark_of_chosen_none _ _ _ (hct.trans hc),
          find_and_mark_of_chosen_none _ _ _ hc]
        dsimp only
        rw [set_getD_self]
        exact ih src tgt hmono
      | some ti =>
        rw [find_and_mark_of_chosen_some _ _ _ _ (hct.trans hc),
          find_and_mark_of_chosen_some _ _ _ _ hc]
        dsimp only
        apply ih
        intro j hj
        exact matched_after_set tgt ti (markFound (tgt.getD ti default)) j rfl (hmono j hj)

theorem phase2_rebuild_eq (pa pb1 pa1 : List Entry) (ps : List Nat)
    (hrows : pa1.map Entry.original_row = pa.map Entry.original_row) :
    runPhase (buildIndex pa) ps (pb1, pa1) =
      runPhase (buildIndexUnmatched pa1) ps (pb1, pa1) := by
  rw [buildIndex_rows_congr pa pa1 hrows.symm]
  symm
  exact runPhase_index_filter_eq (buildIndex pa1) (buildIndexUnmatched pa1) pa1 ps
    (buildIndexUnmatched_eq pa1) pb1 pa1 (fun j hj => hj)

end Reconcile

namespace Reconcile

/-! ## Instrumented phase: the list of `(source, target)` pairs a phase marks -/

/-- `runPhase` instrumented to also return the `(source position, target
position)` pairs that `find_and_mark` marks during the phase. -/
def runPhaseP (idxF : IndexKey → List (Int × Nat)) :
    List Nat → List Entry × List Entry →
      (List Entry × List Entry) × List (Nat × Nat)
  | [], st => (st, [])
  | i :: rest, (src, tgt) =>
    let e := src.getD i default
    if e.matched then runPhaseP idxF rest (src, tgt)
    else
      match chosenTarget e idxF tgt with
      | none => runPhaseP idxF rest (src.set i e, tgt)
      | some ti =>
        let r := runPhaseP idxF rest
          (src.set i (markFound e), tgt.set ti (markFound (tgt.getD ti default)))
        (r.1, (i, ti) :: r.2)

theorem runPhaseP_cons (f : IndexKey → List (Int × Nat)) (i : Nat) (rest : List Nat)
    (src tgt : List Entry) :
    runPhaseP f (i :: rest) (src, tgt) =
      if (src.getD i default).matched then runPhaseP f rest (src, tgt)
      else
        match chosenTarget (src.getD i default) f tgt with
        | none => runPhaseP f rest (src.set i (src.getD i default), tgt)
        | some ti =>
          ((runPhaseP f rest (src.set i (markFound (src.getD i default)),
              tgt.set ti (markFound (tgt.getD ti default)))).1,
           (i, ti) :: (runPhaseP f rest (src.set i (markFound (src.getD i default)),
              tgt.set ti (markFound (tgt.getD ti default)))).2) := rfl

/-- The instrumented phase computes the same final state as `runPhase`. -/
theorem runPhaseP_fst (f : IndexKey → List (Int × Nat)) (ps : List Nat) :
    ∀ src tgt : List Entry, (runPhaseP f ps (src, tgt)).1 = runPhase f ps (src, tgt) := by
  induction ps with
  | nil => intro src tgt; rfl
  | cons i rest ih =>
    intro src tgt
    rw [runPhaseP_cons, runPhase_cons]
    by_cases hm : (src.getD i default).matched
    · rw [if_pos hm, if_pos hm]
      exact ih src tgt
    · rw [if_neg hm, if_neg hm]
      cases hc : chosenTarget (src.getD i default) f tgt with
      | none =>
        rw [find_and_mark_of_chosen_none _ _ _ hc]
        dsimp only
        exact ih _ _
      | some ti =>
        rw [find_and_mark_of_chosen_some _ _ _ _ hc]
        dsimp only
        exact ih _ _

theorem nodup_append_singleton {α : Type} (l : List α) (a : α)
    (h : l.Nodup) (ha : a ∉ l) : (l ++ [a]).Nodup := by
  induction l with
  | nil => simp
  | cons b t ih =>
    rw [List.nodup_cons] at h
    rw [List.cons_append, List.nodup_cons]
    constructor
    · intro hmem
      rcases List.mem_append.mp hmem with h1 | h1
      · exact h.1 h1
      · rw [List.mem_singleton] at h1
        exact ha (h1 ▸ List.mem_cons_self b t)
    · exact ih h.2 (fun hat => ha (List.mem_cons_of_mem _ hat))

/-- The pairing invariant: through a phase, the set of matched source
positions is exactly the first components of the accumulated pairs, the set of
matched target positions exactly the second components, and both component
lists stay duplicate-free. -/
theorem runPhaseP_pairs (f : IndexKey → List (Int × Nat)) (ps : List Nat) :
    ∀ (src tgt : List Entry) (acc : List (Nat × Nat)),
    (∀ k p, p ∈ f k → p.2 < tgt.length) →
    (∀ i ∈ ps, i < src.length) →
    (∀ i, (src.getD i default).matched = true ↔ i ∈ acc.map Prod.fst) →
    (∀ j, (tgt.getD j default).matched = true ↔ j ∈ acc.map Prod.snd) →
    (acc.map Prod.fst).Nodup →
    (acc.map Prod.snd).Nodup →
    ((∀ i, ((runPhaseP f ps (src, tgt)).1.1.getD i default).matched = true ↔
        i ∈ (acc ++ (runPhaseP f ps (src, tgt)).2).map Prod.fst) ∧
     (∀ j, ((runPhaseP f ps (src, tgt)).1.2.getD j default).matched = true ↔
        j ∈ (acc ++ (runPhaseP f ps (src, tgt)).2).map Prod.snd) ∧
     ((acc ++ (runPhaseP f ps (src, tgt)).2).map Prod.fst).Nodup ∧
     ((acc ++ (runPhaseP f ps (src, tgt)).2).map Prod.snd).Nodup) := by
  induction ps with
  | nil =>
    intro src tgt acc _ _ hsrc htgt hn1 hn2
    have h0 : runPhaseP f [] (src, tgt) = ((src, tgt), []) := rfl
    rw [h0, List.append_nil]
    exact ⟨hsrc, htgt, hn1, hn2⟩
  | cons i rest ih =>
    intro src tgt acc hb hps hsrc htgt hn1 hn2
    rw [runPhaseP_cons]
    by_cases hm : (src.getD i default).matched
    · rw [if_pos hm]
      exact ih src tgt acc hb (fun p hp => hps p (List.mem_cons_of_mem _ hp))
        hsrc htgt hn1 hn2
    · rw [if_neg hm]
      cases hc : chosenTarget (src.getD i default) f tgt with
      | none =>
        dsimp only
        rw [set_getD_self]
        exact ih src tgt acc hb (fun p hp => hps p (List.mem_cons_of_mem _ hp))
          hsrc htgt hn1 hn2
      | some ti =>
        dsimp only
        obtain ⟨htm, td, hmem⟩ := chosenTarget_spec _ _ _ _ hc
        have hti : ti < tgt.length := hb _ _ hmem
        have hi : i < src.length := hps i (List.mem_cons_self _ _)
        have hinotin : i ∉ acc.map Prod.fst := by
          intro hin
          exact hm ((hsrc i).mpr hin)
        have htinotin : ti ∉ acc.map Prod.snd := by
          intro hin
          rw [(htgt ti).mpr hin] at htm
          exact absurd htm (by simp)
        have hsrc' : ∀ i0,
            (((src.set i (markFound (src.getD i default))).getD i0 default).matched = true ↔
              i0 ∈ (acc ++ [(i, ti)]).map Prod.fst) := by
          intro i0
          rw [List.map_append]
          by_cases hi0 : i0 = i
          · subst hi0
            rw [getD_set_eq src i0 _ hi]
            simp [markFound]
          · rw [getD_set_neq src i i0 _ hi0]
            rw [hsrc i0]
            constructor
            · intro h1
              exact List.mem_append.mpr (Or.inl h1)
            · intro h1
              rcases List.mem_append.mp h1 with h2 | h2
              · exact h2
              · exact absurd (List.mem_singleton.mp h2) hi0
        have htgt' : ∀ j,
            (((tgt.set ti (markFound (tgt.getD ti default))).getD j default).matched = true ↔
              j ∈ (acc ++ [(i, ti)]).map Prod.snd) := by
          intro j
          rw [List.map_append]
          by_cases hj : j = ti
          · subst hj
            rw [getD_set_eq tgt j _ hti]
            simp [markFound]
          · rw [getD_set_neq tgt ti j _ hj]
            rw [htgt j]
            constructor
            · intro h1
              exact List.mem_append.mpr (Or.inl h1)
            · intro h1
              rcases List.mem_append.mp h1 with h2 | h2
              · exact h2
              · exact absurd (List.mem_singleton.mp h2) hj
        have hn1' : ((acc ++ [(i, ti)]).map Prod.fst).Nodup := by
          rw [List.map_append]
          exact nodup_append_singleton _ _ hn1 hinotin
        have hn2' : ((acc ++ [(i, ti)]).map Prod.snd).Nodup := by
          rw [List.map_append]
          exact nodup_append_singleton _ _ hn2 htinotin
        have IH := ih (src.set i (markFound (src.getD i default)))
          (tgt.set ti (markFound (tgt.getD ti default)))
          (acc ++ [(i, ti)])
          (by intro k p hp; rw [List.length_set]; exact hb k p hp)
          (by intro p hp; rw [List.length_set]
              exact hps p (List.mem_cons_of_mem _ hp))
          hsrc' htgt' hn1' hn2'
        rw [List.append_cons acc (i, ti) _]
        exact IH

end Reconcile

namespace Reconcile

/-! ## The two phases of a reconciliation run, as named states -/

/-- State after Phase 1 (A matched against B's index): `(processed_a, processed_b)`. -/
def phase1State (ta tb : List RawRow) : List Entry × List Entry :=
  runPhase (buildIndex (tb.map initEntry)) (List.range (ta.map initEntry).length)
    (ta.map initEntry, tb.map initEntry)

/-- State after Phase 2 (B matched against A's index): `(processed_b, processed_a)`. -/
def phase2State (ta tb : List RawRow) : List Entry × List Entry :=
  runPhase (buildIndex (ta.map initEntry))
    (List.range (phase1State ta tb).2.length)
    ((phase1State ta tb).2, (phase1State ta tb).1)

theorem reconcile_accounts_eq (ta tb : List RawRow) :
    reconcile_accounts ta tb =
      ((phase2State ta tb).2.map (fun e => e.original_row ++ [e.status]),
       (phase2State ta tb).1.map (fun e => e.original_row ++ [e.status])) := rfl

theorem initEntry_row (r : RawRow) : (initEntry r).original_row = normalize_row r := rfl

theorem map_initEntry_rows (l : List RawRow) :
    (l.map initEntry).map Entry.original_row = l.map normalize_row := by
  rw [List.map_map]
  rfl

theorem phase2_rows_a (ta tb : List RawRow) :
    (phase2State ta tb).2.map Entry.original_row = ta.map normalize_row := by
  have h2 := (runPhase_rows (buildIndex (ta.map initEntry))
    (List.range (phase1State ta tb).2.length)
    (phase1State ta tb).2 (phase1State ta tb).1).2
  have h1 := (runPhase_rows (buildIndex (tb.map initEntry))
    (List.range (ta.map initEntry).length)
    (ta.map initEntry) (tb.map initEntry)).1
  calc (phase2State ta tb).2.map Entry.original_row
      = (phase1State ta tb).1.map Entry.original_row := h2
    _ = (ta.map initEntry).map Entry.original_row := h1
    _ = ta.map normalize_row := map_initEntry_rows ta

theorem phase2_rows_b (ta tb : List RawRow) :
    (phase2State ta tb).1.map Entry.original_row = tb.map normalize_row := by
  have h2 := (runPhase_rows (buildIndex (ta.map initEntry))
    (List.range (phase1State ta tb).2.length)
    (phase1State ta tb).2 (phase1State ta tb).1).1
  have h1 := (runPhase_rows (buildIndex (tb.map initEntry))
    (List.range (ta.map initEntry).length)
    (ta.map initEntry) (tb.map initEntry)).2
  calc (phase2State ta tb).1.map Entry.original_row
      = (phase1State ta tb).2.map Entry.original_row := h2
    _ = (tb.map initEntry).map Entry.original_row := h1
    _ = tb.map normalize_row := map_initEntry_rows tb

theorem phase2_len_a (ta tb : List RawRow) :
    (phase2State ta tb).2.length = ta.length := by
  have h := congrArg List.length (phase2_rows_a ta tb)
  simpa using h

theorem phase2_len_b (ta tb : List RawRow) :
    (phase2State ta tb).1.length = tb.length := by
  have h := congrArg List.length (phase2_rows_b ta tb)
  simpa using h

theorem initEntry_statusOK (l : List RawRow) :
    ∀ a ∈ l.map initEntry, a.status = "FOUND" ∨ a.status = "MISSING" := by
  intro a ha
  obtain ⟨r, _, rfl⟩ := List.mem_map.mp ha
  right; rfl

theorem initEntry_inv (l : List RawRow) :
    ∀ a ∈ l.map initEntry, (a.matched = true ↔ a.status = "FOUND") := by
  intro a ha
  obtain ⟨r, _, rfl⟩ := List.mem_map.mp ha
  constructor
  · intro h; exact absurd h (by simp [initEntry])
  · intro h; exact absurd h (by simp [initEntry])

theorem phase2_statusOK (ta tb : List RawRow) :
    (∀ a ∈ (phase2State ta tb).1, a.status = "FOUND" ∨ a.status = "MISSING") ∧
    (∀ a ∈ (phase2State ta tb).2, a.status = "FOUND" ∨ a.status = "MISSING") := by
  have h1 := runPhase_statusOK (buildIndex (tb.map initEntry))
    (List.range (ta.map initEntry).length)
    (ta.map initEntry) (tb.map initEntry)
    (initEntry_statusOK ta) (initEntry_statusOK tb)
  exact runPhase_statusOK (buildIndex (ta.map initEntry))
    (List.range (phase1State ta tb).2.length)
    (phase1State ta tb).2 (phase1State ta tb).1 h1.2 h1.1

theorem phase2_inv (ta tb : List RawRow) :
    (∀ a ∈ (phase2State ta tb).1, (a.matched = true ↔ a.status = "FOUND")) ∧
    (∀ a ∈ (phase2State ta tb).2, (a.matched = true ↔ a.status = "FOUND")) := by
  have h1 := runPhase_inv (buildIndex (tb.map initEntry))
    (List.range (ta.map initEntry).length)
    (ta.map initEntry) (tb.map initEntry)
    (initEntry_inv ta) (initEntry_inv tb)
  exact runPhase_inv (buildIndex (ta.map initEntry))
    (List.range (phase1State ta tb).2.length)
    (phase1State ta tb).2 (phase1State ta tb).1 h1.2 h1.1

theorem getD_map_general {α β : Type} [Inhabited α] (g : α → β) (dflt : β)
    (l : List α) (i : Nat) (h : i < l.length) :
    (l.map g).getD i dflt = g (l.getD i default) := by
  induction l generalizing i with
  | nil => simp at h
  | cons a t ih =>
    cases i with
    | zero => rfl
    | succ n =>
      simp only [List.length_cons, Nat.succ_lt_succ_iff] at h
      simpa [List.getD_cons_succ] using ih n h

theorem normalize_row_length (row : RawRow) : (normalize_row row).length = 4 := by
  unfold normalize_row
  cases row with
  | cells cs =>
    simp only [List.length_map, List.length_take, List.length_append,
      List.length_replicate]
    omega
  | notASequence => rfl

end Reconcile

namespace Reconcile

/-! ## Claim theorems -/

/-- **C1.** For every pair of input row sequences (rows of arbitrary
length/shape, possibly non-sequences or containing `None` cells),
`reconcile_accounts` returns two lists whose lengths equal those of the
corresponding inputs, in the same relative order: the `i`-th output row is the
`i`-th input row normalized to exactly 4 stripped string fields, followed by a
status that is exactly `'FOUND'` or `'MISSING'`.  The embedding is a total
function, so no exception is raised on any input. -/
theorem reconcile_output_shape (ta tb : List RawRow) :
    (reconcile_accounts ta tb).1.length = ta.length ∧
    (reconcile_accounts ta tb).2.length = tb.length ∧
    (∀ i, i < ta.length → ∃ s, (s = "FOUND" ∨ s = "MISSING") ∧
      (reconcile_accounts ta tb).1.getD i [] =
        normalize_row (ta.getD i default) ++ [s] ∧
      (normalize_row (ta.getD i default)).length = 4) ∧
    (∀ i, i < tb.length → ∃ s, (s = "FOUND" ∨ s = "MISSING") ∧
      (reconcile_accounts ta tb).2.getD i [] =
        normalize_row (tb.getD i default) ++ [s] ∧
      (normalize_row (tb.getD i default)).length = 4) := by
  rw [reconcile_accounts_eq]
  refine ⟨?_, ?_, ?_, ?_⟩
  · show ((phase2State ta tb).2.map _).length = ta.length
    rw [List.length_map, phase2_len_a]
  · show ((phase2State ta tb).1.map _).length = tb.length
    rw [List.length_map, phase2_len_b]
  · intro i hi
    have hlen : i < (phase2State ta tb).2.length := by rw [phase2_len_a]; exact hi
    refine ⟨((phase2State ta tb).2.getD i default).status, ?_, ?_, normalize_row_length _⟩
    · rcases getD_mem_or_default ((phase2State ta tb).2) i with hmem | hdef
      · exact (phase2_statusOK ta tb).2 _ hmem
      · rw [hdef]; right; rfl
    · show ((phase2State ta tb).2.map _).getD i [] = _
      rw [getD_map_general _ _ _ i hlen]
      have hrow : ((phase2State ta tb).2.getD i default).original_row
          = normalize_row (ta.getD i default) := by
        have h := congrArg (fun l => l.getD i ([] : List String)) (phase2_rows_a ta tb)
        dsimp only at h
        rw [getD_map_general _ _ _ i hlen, getD_map_general _ _ _ i hi] at h
        exact h
      rw [hrow]
  · intro i hi
    have hlen : i < (phase2State ta tb).1.length := by rw [phase2_len_b]; exact hi
    refine ⟨((phase2State ta tb).1.getD i default).status, ?_, ?_, normalize_row_length _⟩
    · rcases getD_mem_or_default ((phase2State ta tb).1) i with hmem | hdef
      · exact (phase2_statusOK ta tb).1 _ hmem
      · rw [hdef]; right; rfl
    · show ((phase2State ta tb).1.map _).getD i [] = _
      rw [getD_map_general _ _ _ i hlen]
      have hrow : ((phase2State ta tb).1.getD i default).original_row
          = normalize_row (tb.getD i default) := by
        have h := congrArg (fun l => l.getD i ([] : List String)) (phase2_rows_b ta tb)
        dsimp only at h
        rw [getD_map_general _ _ _ i hlen, getD_map_general _ _ _ i hi] at h
        exact h
      rw [hrow]

/-- Witness for C1, at a degenerate input (a non-sequence row and a row with a
single `None` cell). -/
theorem reconcile_output_shape_witness :
    0 < 1 ∧ (∃ s, (s = "FOUND" ∨ s = "MISSING") ∧
      (reconcile_accounts [RawRow.notASequence] [RawRow.cells [none]]).1.getD 0 [] =
        normalize_row (([RawRow.notASequence] : List RawRow).getD 0 default) ++ [s] ∧
      (normalize_row (([RawRow.notASequence] : List RawRow).getD 0 default)).length = 4) :=
  ⟨by decide,
   (reconcile_output_shape [RawRow.notASequence] [RawRow.cells [none]]).2.2.1 0 (by decide)⟩

theorem scaledRound6_shift (m : Nat) (e : Int) :
    scaledRound6 (m * 10) (e - 1) = scaledRound6 m e := by
  unfold scaledRound6
  by_cases h : 0 ≤ e + 6
  · rw [if_pos h]
    by_cases h1 : 0 ≤ e - 1 + 6
    · rw [if_pos h1]
      have ht : (e + 6).toNat = (e - 1 + 6).toNat + 1 := by omega
      rw [ht, pow_succ]
      ring
    · rw [if_neg h1]
      have hk : (-(e - 1 + 6)).toNat = 1 := by omega
      have ht : (e + 6).toNat = 0 := by omega
      rw [hk, ht, pow_one, pow_zero, Nat.mul_one]
      have hr : m * 10 % 10 = 0 := Nat.mul_mod_left m 10
      have hq : m * 10 / 10 = m := Nat.mul_div_cancel m (by norm_num)
      rw [hr, hq]
      norm_num
  · rw [if_neg h]
    have h1 : ¬ 0 ≤ e - 1 + 6 := by omega
    rw [if_neg h1]
    have hk : (-(e - 1 + 6)).toNat = (-(e + 6)).toNat + 1 := by omega
    rw [hk, pow_succ]
    have hq : m * 10 / (10 ^ (-(e + 6)).toNat * 10) = m / 10 ^ (-(e + 6)).toNat := by
      rw [Nat.mul_comm (10 ^ (-(e + 6)).toNat) 10, ← Nat.div_div_eq_div_mul,
        Nat.mul_div_cancel m (by norm_num)]
    have hr : m * 10 % (10 ^ (-(e + 6)).toNat * 10) =
        m % 10 ^ (-(e + 6)).toNat * 10 := by
      rw [Nat.mul_comm (10 ^ (-(e + 6)).toNat) 10, Nat.mul_comm m 10,
        Nat.mul_mod_mul_left, Nat.mul_comm]
    rw [hq, hr]
    by_cases c1 : 2 * (m % 10 ^ (-(e + 6)).toNat) < 10 ^ (-(e + 6)).toNat
    · rw [if_pos (by omega), if_pos c1]
    · rw [if_neg (by omega), if_neg c1]
      by_cases c2 : 10 ^ (-(e + 6)).toNat < 2 * (m % 10 ^ (-(e + 6)).toNat)
      · rw [if_pos (by omega), if_pos c2]
      · rw [if_neg (by omega), if_neg c2]

theorem scaledRound6_shift_pow (m d : Nat) (e : Int) :
    scaledRound6 (m * 10 ^ d) (e - d) = scaledRound6 m e := by
  induction d with
  | zero => simp
  | succ n ih =>
    have h1 : m * 10 ^ (n + 1) = m * 10 ^ n * 10 := by ring
    have h2 : e - ((n + 1 : Nat) : Int) = e - (n : Int) - 1 := by push_cast; ring
    rw [h1, h2, scaledRound6_shift (m * 10 ^ n) (e - n), ih]

theorem scaledRound6_of_mag_le (m1 m2 : Nat) (e1 e2 : Int) (hle : e1 ≤ e2)
    (h : (m1 : ℚ) * 10 ^ e1 = (m2 : ℚ) * 10 ^ e2) :
    scaledRound6 m1 e1 = scaledRound6 m2 e2 := by
  obtain ⟨d, rfl⟩ : ∃ d : Nat, e1 = e2 - d := ⟨(e2 - e1).toNat, by omega⟩
  have h10 : (10 : ℚ) ^ (e2 - (d : ℤ)) ≠ 0 := zpow_ne_zero _ (by norm_num)
  have hpow : (10 : ℚ) ^ ((d : ℤ) + (e2 - (d : ℤ))) = 10 ^ e2 := by
    congr 1
    omega
  have key : (m2 : ℚ) * 10 ^ (d : ℤ) * 10 ^ (e2 - (d : ℤ)) = (m2 : ℚ) * 10 ^ e2 := by
    rw [mul_assoc, ← zpow_add₀ (by norm_num : (10 : ℚ) ≠ 0), hpow]
  have step : (m1 : ℚ) = (m2 : ℚ) * 10 ^ (d : ℤ) :=
    mul_right_cancel₀ h10 (by rw [h, key])
  rw [zpow_natCast] at step
  have hm : m1 = m2 * 10 ^ d := by exact_mod_cast step
  rw [hm]
  exact scaledRound6_shift_pow m2 d e2

theorem formatSixDecimals_congr (v v' : FloatVal) (hneg : v.neg = v'.neg)
    (hmag : v.mag = v'.mag) : formatSixDecimals v = formatSixDecimals v' := by
  unfold FloatVal.mag at hmag
  have h : scaledRound6 v.mantissa v.exp = scaledRound6 v'.mantissa v'.exp := by
    rcases le_total v.exp v'.exp with hle | hle
    · exact scaledRound6_of_mag_le _ _ _ _ hle hmag
    · exact (scaledRound6_of_mag_le _ _ _ _ hle hmag.symm).symm
  unfold formatSixDecimals
  rw [hneg, h]

theorem create_index_key_amount_verbatim (row : List String)
    (h : parse_float (row.getD 2 "") = none) :
    (create_index_key row).2.1 = row.getD 2 "" := by
  unfold create_index_key
  rw [h]

/-- **C5.** `create_index_key` lower-cases the department and beneficiary
components; a float-parseable amount is rendered to the fixed 6-decimal
canonical string, so two amounts that parse to the same sign and value give
the same key (e.g. `123.4` vs `123.400000`); an unparseable amount is used
verbatim as the key component, so two unparseable amounts give equal keys only
when textually identical. -/
theorem create_index_key_spec :
    (∀ row : List String, (create_index_key row).1 = pyToLower (row.getD 1 "") ∧
      (create_index_key row).2.2 = pyToLower (row.getD 3 "")) ∧
    (∀ (r r' : List String) (v v' : FloatVal),
      parse_float (r.getD 2 "") = some v → parse_float (r'.getD 2 "") = some v' →
      v.neg = v'.neg → v.mag = v'.mag →
      pyToLower (r.getD 1 "") = pyToLower (r'.getD 1 "") →
      pyToLower (r.getD 3 "") = pyToLower (r'.getD 3 "") →
      create_index_key r = create_index_key r') ∧
    (create_index_key ["", "Dept", "123.4", "Bob"] =
      create_index_key ["", "dept", "123.400000", "BOB"]) ∧
    (∀ row : List String, parse_float (row.getD 2 "") = none →
      (create_index_key row).2.1 = row.getD 2 "") ∧
    (∀ (d1 b1 d2 b2 s s' : String), parse_float s = none → parse_float s' = none →
      create_index_key ["", d1, s, b1] = create_index_key ["", d2, s', b2] →
      s = s') := by
  refine ⟨fun row => ⟨rfl, rfl⟩, ?_, by decide, ?_, ?_⟩
  · intro r r' v v' hpr hpr' hneg hmag hdep hben
    unfold create_index_key
    rw [hpr, hpr']
    dsimp only
    rw [hdep, hben, formatSixDecimals_congr v v' hneg hmag]
  · exact fun row h => create_index_key_amount_verbatim row h
  · intro d1 b1 d2 b2 s s' hs hs' hkey
    have e1 : (create_index_key ["", d1, s, b1]).2.1 = s :=
      create_index_key_amount_verbatim ["", d1, s, b1] hs
    have e2 : (create_index_key ["", d2, s', b2]).2.1 = s' :=
      create_index_key_amount_verbatim ["", d2, s', b2] hs'
    rw [← e1, ← e2, hkey]

/-- Witness for C5: `1.5` and `1.50` parse to the same value and yield the
same key despite different department/beneficiary capitalization. -/
theorem create_index_key_spec_witness :
    (parse_float "1.5" = some ⟨false, 15, -1⟩ ∧
     parse_float "1.50" = some ⟨false, 150, -2⟩ ∧
     FloatVal.mag ⟨false, 15, -1⟩ = FloatVal.mag ⟨false, 150, -2⟩) ∧
    create_index_key ["", "a", "1.5", "b"] = create_index_key ["", "A", "1.50", "B"] :=
  ⟨⟨by decide, by decide, by
      unfold FloatVal.mag
      norm_num⟩,
   create_index_key_spec.2.1 ["", "a", "1.5", "b"] ["", "A", "1.50", "B"]
     ⟨false, 15, -1⟩ ⟨false, 150, -2⟩ (by decide) (by decide) (by decide)
     (by
      unfold FloatVal.mag
      norm_num)
     (by decide) (by decide)⟩

/-- **C6.** The index over a ledger contains a `(date, position)` pair for a
record iff the record's date parses and its key is the bucket's key; after
construction every bucket is sorted by date ascending; equal-date entries keep
their original list order (the sort is stable, with no secondary tie-break
key). -/
theorem buildIndex_spec (l : List Entry) (k : IndexKey) :
    (∀ d i, ((d, i) ∈ buildIndex l k ↔
      (i < l.length ∧
       parse_date ((l.getD i default).original_row.getD 0 "") = some d ∧
       create_index_key (l.getD i default).original_row = k))) ∧
    (buildIndex l k).Pairwise (fun p q => p.1 ≤ q.1) ∧
    (∀ d, (buildIndex l k).filter (fun p => p.1 == d) =
      (rawBucket l k).filter (fun p => p.1 == d)) :=
  ⟨buildIndex_mem l k, buildIndex_sorted l k, buildIndex_stable l k⟩

/-- **C7.** A record whose date does not parse is excluded from its ledger's
index (it can never be accepted as a match target), and when it is the source,
`find_and_mark` returns `'MISSING'` immediately, leaving the source entry and
the whole target list unchanged; the model is total, so no exception is
raised. -/
theorem unparseable_date_excluded :
    (∀ (l : List Entry) (k : IndexKey) (d : Int) (i : Nat),
      parse_date ((l.getD i default).original_row.getD 0 "") = none →
      (d, i) ∉ buildIndex l k) ∧
    (∀ (e : Entry) (f : IndexKey → List (Int × Nat)) (tgt : List Entry),
      parse_date (e.original_row.getD 0 "") = none →
      find_and_mark e f tgt = ("MISSING", e, tgt)) := by
  constructor
  · intro l k d i h hmem
    obtain ⟨_, hp, _⟩ := (buildIndex_mem l k d i).mp hmem
    rw [h] at hp
    exact absurd hp (by simp)
  · intro e f tgt h
    exact find_and_mark_of_chosen_none e f tgt (chosenTarget_none_of_no_date e f tgt h)

/-- Witness for C7 at a concrete unparseable date. -/
theorem unparseable_date_excluded_witness :
    parse_date "nodate" = none ∧
    find_and_mark ⟨["nodate", "a", "1", "b"], "MISSING", false⟩ (buildIndex []) [] =
      ("MISSING", ⟨["nodate", "a", "1", "b"], "MISSING", false⟩, []) :=
  ⟨by rfl,
   unparseable_date_excluded.2 ⟨["nodate", "a", "1", "b"], "MISSING", false⟩
     (buildIndex []) [] (by rfl)⟩

/-- **C8.** Entries start with `matched = false` and `status = 'MISSING'`; the
invariant `matched = true ↔ status = 'FOUND'` holds for every entry of both
lists after each phase (hence at every point between the steps of a run); and
matching is monotone: an entry already matched at the start of a phase is left
exactly as it is by that phase — never reset to `'MISSING'`, never revisited. -/
theorem matched_status_invariant :
    (∀ r : RawRow, (initEntry r).matched = false ∧ (initEntry r).status = "MISSING") ∧
    (∀ (f : IndexKey → List (Int × Nat)) (ps : List Nat) (src tgt : List Entry),
      (∀ a ∈ src, (a.matched = true ↔ a.status = "FOUND")) →
      (∀ a ∈ tgt, (a.matched = true ↔ a.status = "FOUND")) →
      (∀ a ∈ (runPhase f ps (src, tgt)).1, (a.matched = true ↔ a.status = "FOUND")) ∧
      (∀ a ∈ (runPhase f ps (src, tgt)).2, (a.matched = true ↔ a.status = "FOUND"))) ∧
    (∀ (f : IndexKey → List (Int × Nat)) (ps : List Nat) (src tgt : List Entry),
      (∀ i, (src.getD i default).matched = true →
        (runPhase f ps (src, tgt)).1.getD i default = src.getD i default) ∧
      (∀ j, (tgt.getD j default).matched = true →
        (runPhase f ps (src, tgt)).2.getD j default = tgt.getD j default)) :=
  ⟨fun _ => ⟨rfl, rfl⟩,
   fun f ps src tgt hs ht => runPhase_inv f ps src tgt hs ht,
   fun f ps src tgt => runPhase_mono f ps src tgt⟩

/-- Witness for C8 on a small concrete phase. -/
theorem matched_status_invariant_witness :
    (∀ a ∈ [initEntry RawRow.notASequence], (a.matched = true ↔ a.status = "FOUND")) ∧
    (∀ a ∈ (runPhase (buildIndex []) [0]
        ([initEntry RawRow.notASequence], ([] : List Entry))).1,
      (a.matched = true ↔ a.status = "FOUND")) :=
  ⟨by decide,
   (matched_status_invariant.2.1 (buildIndex []) [0] [initEntry RawRow.notASequence] []
     (by decide) (by decide)).1⟩

end Reconcile

namespace Reconcile

/-- **C4.** Given an unmatched source entry with a parseable date,
`find_and_mark` scans the key's bucket (which is in ascending target-date
order) in order, skips already-matched targets, and accepts the first
candidate within 1 day of the source date: on acceptance it marks source and
target `FOUND`/`matched` together in the same step and returns `'FOUND'`; if
every bucket element is matched or more than 1 day away it returns
`'MISSING'` with the source entry and target list unchanged. -/
theorem find_and_mark_spec (e : Entry) (tl tgt : List Entry) (sd : Int)
    (hp : parse_date (e.original_row.getD 0 "") = some sd) :
    ((buildIndex tl (create_index_key e.original_row)).Pairwise
      (fun p q => p.1 ≤ q.1)) ∧
    (∀ (l1 l2 : List (Int × Nat)) (td : Int) (ti : Nat),
      buildIndex tl (create_index_key e.original_row) = l1 ++ (td, ti) :: l2 →
      (∀ p ∈ l1, (tgt.getD p.2 default).matched = true ∨ 1 < (sd - p.1).natAbs) →
      (tgt.getD ti default).matched = false → (sd - td).natAbs ≤ 1 →
      find_and_mark e (buildIndex tl) tgt =
        ("FOUND", markFound e, tgt.set ti (markFound (tgt.getD ti default)))) ∧
    ((∀ p ∈ buildIndex tl (create_index_key e.original_row),
        (tgt.getD p.2 default).matched = true ∨ 1 < (sd - p.1).natAbs) →
      find_and_mark e (buildIndex tl) tgt = ("MISSING", e, tgt)) := by
  refine ⟨buildIndex_sorted tl _, ?_, ?_⟩
  · intro l1 l2 td ti hb hrej hum hd
    have hft : findTarget sd tgt (buildIndex tl (create_index_key e.original_row)) =
        some ti := by
      rw [hb]
      exact findTarget_of_first sd tgt l1 l2 td ti hrej hum hd
    have hc : chosenTarget e (buildIndex tl) tgt = some ti := by
      unfold chosenTarget
      rw [hp]
      dsimp only
      rw [if_neg (by rw [hb]; simp)]
      exact hft
    exact find_and_mark_of_chosen_some e (buildIndex tl) tgt ti hc
  · intro hrej
    have hft : findTarget sd tgt (buildIndex tl (create_index_key e.original_row)) =
        none := (findTarget_eq_none_iff sd tgt _).mpr hrej
    have hc : chosenTarget e (buildIndex tl) tgt = none := by
      unfold chosenTarget
      rw [hp]
      dsimp only
      by_cases hbe : buildIndex tl (create_index_key e.original_row) = []
      · rw [if_pos hbe]
      · rw [if_neg hbe]
        exact hft
    exact find_and_mark_of_chosen_none e (buildIndex tl) tgt hc

/-- Witness for C4: a singleton bucket one day from the source date is
accepted and both entries are marked together. -/
theorem find_and_mark_spec_witness :
    (parse_date "2024-01-01" = some (civilToDays 2024 1 1) ∧
     buildIndex [⟨["2024-01-02", "Sales", "100.00", "Alice"], "MISSING", false⟩]
       (create_index_key ["2024-01-01", "Sales", "100.00", "Alice"]) =
       [(civilToDays 2024 1 2, 0)] ∧
     (civilToDays 2024 1 1 - civilToDays 2024 1 2).natAbs ≤ 1) ∧
    find_and_mark ⟨["2024-01-01", "Sales", "100.00", "Alice"], "MISSING", false⟩
      (buildIndex [⟨["2024-01-02", "Sales", "100.00", "Alice"], "MISSING", false⟩])
      [⟨["2024-01-02", "Sales", "100.00", "Alice"], "MISSING", false⟩] =
      ("FOUND", markFound ⟨["2024-01-01", "Sales", "100.00", "Alice"], "MISSING", false⟩,
        [⟨["2024-01-02", "Sales", "100.00", "Alice"], "MISSING", false⟩].set 0
          (markFound ([⟨["2024-01-02", "Sales", "100.00", "Alice"], "MISSING", false⟩].getD 0
            default))) :=
  ⟨⟨by decide, by decide, by decide⟩,
   (find_and_mark_spec ⟨["2024-01-01", "Sales", "100.00", "Alice"], "MISSING", false⟩
      [⟨["2024-01-02", "Sales", "100.00", "Alice"], "MISSING", false⟩]
      [⟨["2024-01-02", "Sales", "100.00", "Alice"], "MISSING", false⟩]
      (civilToDays 2024 1 1) (by decide)).2.1 [] []
      (civilToDays 2024 1 2) 0 (by decide) (by decide) (by decide) (by decide)⟩

end Reconcile

namespace Reconcile

theorem phase2_entry_a_nodate (ta tb : List RawRow) (i : Nat) (hi : i < ta.length)
    (hnd : parse_date ((normalize_row (ta.getD i default)).getD 0 "") = none) :
    (phase2State ta tb).2.getD i default = initEntry (ta.getD i default) := by
  have hpa : (ta.map initEntry).getD i default = initEntry (ta.getD i default) :=
    getD_map_general initEntry default ta i hi
  have hnd' : parse_date (((ta.map initEntry).getD i default).original_row.getD 0 "") =
      none := by
    rw [hpa]; exact hnd
  have h1 : (phase1State ta tb).1.getD i default = (ta.map initEntry).getD i default :=
    runPhase_src_nodate (buildIndex (tb.map initEntry))
      (List.range (ta.map initEntry).length) (ta.map initEntry) (tb.map initEntry) i hnd'
  have hnob : ∀ k d, (d, i) ∉ buildIndex (ta.map initEntry) k := by
    intro k d hmem
    obtain ⟨_, hpd, _⟩ := (buildIndex_mem _ k d i).mp hmem
    rw [hnd'] at hpd
    exact absurd hpd (by simp)
  have h2 : (phase2State ta tb).2.getD i default = (phase1State ta tb).1.getD i default :=
    runPhase_tgt_unindexed (buildIndex (ta.map initEntry))
      (List.range (phase1State ta tb).2.length)
      (phase1State ta tb).2 (phase1State ta tb).1 i hnob
  rw [h2, h1, hpa]

theorem phase2_entry_b_nodate (ta tb : List RawRow) (j : Nat) (hj : j < tb.length)
    (hnd : parse_date ((normalize_row (tb.getD j default)).getD 0 "") = none) :
    (phase2State ta tb).1.getD j default = initEntry (tb.getD j default) := by
  have hpb : (tb.map initEntry).getD j default = initEntry (tb.getD j default) :=
    getD_map_general initEntry default tb j hj
  have hnd' : parse_date (((tb.map initEntry).getD j default).original_row.getD 0 "") =
      none := by
    rw [hpb]; exact hnd
  have hnob : ∀ k d, (d, j) ∉ buildIndex (tb.map initEntry) k := by
    intro k d hmem
    obtain ⟨_, hpd, _⟩ := (buildIndex_mem _ k d j).mp hmem
    rw [hnd'] at hpd
    exact absurd hpd (by simp)
  have h1 : (phase1State ta tb).2.getD j default = (tb.map initEntry).getD j default :=
    runPhase_tgt_unindexed (buildIndex (tb.map initEntry))
      (List.range (ta.map initEntry).length) (ta.map initEntry) (tb.map initEntry) j hnob
  have hnd2 : parse_date (((phase1State ta tb).2.getD j default).original_row.getD 0 "") =
      none := by
    rw [h1]; exact hnd'
  have h2 : (phase2State ta tb).1.getD j default = (phase1State ta tb).2.getD j default :=
    runPhase_src_nodate (buildIndex (ta.map initEntry))
      (List.range (phase1State ta tb).2.length)
      (phase1State ta tb).2 (phase1State ta tb).1 j hnd2
  rw [h2, h1, hpb]

/-- **C10.** A date field is parseable exactly when (after stripping) it has
the single `strptime` shape `%Y-%m-%d`: `2024-01-02` parses, while a slashed
date, a trailing time, an out-of-range month or an invalid day do not; and a
record carrying an unparseable date always ends with status `'MISSING'` — it
can neither find a match as a source nor be found as a target. -/
theorem parse_date_format_spec :
    (parse_date "2024-01-02" = some (civilToDays 2024 1 2)) ∧
    (parse_date " 2024-01-02 " = some (civilToDays 2024 1 2)) ∧
    (parse_date "02/01/2024" = none) ∧
    (parse_date "2024-01-02 10:00" = none) ∧
    (parse_date "2024-13-01" = none) ∧
    (parse_date "2023-02-29" = none) ∧
    (∀ (ta tb : List RawRow) (i : Nat),
      parse_date ((normalize_row (ta.getD i default)).getD 0 "") = none →
      i < ta.length →
      (reconcile_accounts ta tb).1.getD i [] =
        normalize_row (ta.getD i default) ++ ["MISSING"]) ∧
    (∀ (ta tb : List RawRow) (j : Nat),
      parse_date ((normalize_row (tb.getD j default)).getD 0 "") = none →
      j < tb.length →
      (reconcile_accounts ta tb).2.getD j [] =
        normalize_row (tb.getD j default) ++ ["MISSING"]) := by
  refine ⟨by decide, by decide, by decide, by decide, by decide, by decide, ?_, ?_⟩
  · intro ta tb i hnd hi
    rw [reconcile_accounts_eq]
    have hlen : i < (phase2State ta tb).2.length := by rw [phase2_len_a]; exact hi
    show ((phase2State ta tb).2.map _).getD i [] = _
    rw [getD_map_general _ _ _ i hlen, phase2_entry_a_nodate ta tb i hi hnd]
    rfl
  · intro ta tb j hnd hj
    rw [reconcile_accounts_eq]
    have hlen : j < (phase2State ta tb).1.length := by rw [phase2_len_b]; exact hj
    show ((phase2State ta tb).1.map _).getD j [] = _
    rw [getD_map_general _ _ _ j hlen, phase2_entry_b_nodate ta tb j hj hnd]
    rfl

/-- Witness for C10: a slash-formatted date leaves its record `'MISSING'`. -/
theorem parse_date_format_spec_witness :
    parse_date ((normalize_row (([RawRow.cells
        [some "02/01/2024", some "a", some "1", some "b"]] : List RawRow).getD 0
        default)).getD 0 "") = none ∧
    (reconcile_accounts [RawRow.cells [some "02/01/2024", some "a", some "1", some "b"]]
        []).1.getD 0 [] =
      normalize_row (([RawRow.cells [some "02/01/2024", some "a", some "1", some "b"]] :
        List RawRow).getD 0 default) ++ ["MISSING"] :=
  ⟨by decide,
   parse_date_format_spec.2.2.2.2.2.2.1
     [RawRow.cells [some "02/01/2024", some "a", some "1", some "b"]] [] 0
     (by decide) (by decide)⟩

end Reconcile

namespace Reconcile

theorem initEntry_not_matched (r : RawRow) : ¬ ((initEntry r).matched = true) := by
  simp [initEntry]

theorem markFound_matched (e : Entry) : (markFound e).matched = true := rfl

/-- **C3.** For two records with equal index keys and parseable dates, each
the only candidate for the other (singleton ledgers): if the dates are exactly
1 day apart both end `'FOUND'`; if they are 2 or more days apart neither is
matched to the other and both end `'MISSING'`. -/
theorem date_tolerance_boundary (ra rb : RawRow) (da db : Int)
    (hda : parse_date ((normalize_row ra).getD 0 "") = some da)
    (hdb : parse_date ((normalize_row rb).getD 0 "") = some db)
    (hkey : create_index_key (normalize_row ra) = create_index_key (normalize_row rb)) :
    ((da - db).natAbs = 1 →
      reconcile_accounts [ra] [rb] =
        ([normalize_row ra ++ ["FOUND"]], [normalize_row rb ++ ["FOUND"]])) ∧
    (2 ≤ (da - db).natAbs →
      reconcile_accounts [ra] [rb] =
        ([normalize_row ra ++ ["MISSING"]], [normalize_row rb ++ ["MISSING"]])) := by
  have hda' : parse_date ((initEntry ra).original_row.getD 0 "") = some da := hda
  have hdb' : parse_date ((initEntry rb).original_row.getD 0 "") = some db := hdb
  have hkey' : create_index_key (initEntry ra).original_row =
      create_index_key (initEntry rb).original_row := hkey
  have hbB : buildIndex [initEntry rb] (create_index_key (initEntry ra).original_row) =
      [(db, 0)] := by
    unfold buildIndex rawBucket
    rw [rawBucketAux_cons, hdb']
    dsimp only
    rw [if_pos hkey'.symm]
    rfl
  have hbA : buildIndex [initEntry ra] (create_index_key (initEntry rb).original_row) =
      [(da, 0)] := by
    unfold buildIndex rawBucket
    rw [rawBucketAux_cons, hda']
    dsimp only
    rw [if_pos hkey']
    rfl
  constructor
  · intro hdiff
    have hle : (da - db).natAbs ≤ 1 := by omega
    have hct1 : chosenTarget (initEntry ra) (buildIndex [initEntry rb])
        [initEntry rb] = some 0 := by
      unfold chosenTarget
      rw [hda']
      dsimp only
      rw [hbB, if_neg (by simp), findTarget_cons]
      simp only [List.getD_cons_zero]
      rw [if_neg (initEntry_not_matched rb), if_pos hle]
    have hph1 : phase1State [ra] [rb] =
        ([markFound (initEntry ra)], [markFound (initEntry rb)]) := by
      unfold phase1State
      rw [show List.range ([ra].map initEntry).length = [0] from rfl, runPhase_cons]
      simp only [List.map_cons, List.map_nil, List.getD_cons_zero]
      rw [if_neg (initEntry_not_matched ra), find_and_mark_of_chosen_some _ _ _ _ hct1]
      dsimp only
      rfl
    have hph2 : phase2State [ra] [rb] =
        ([markFound (initEntry rb)], [markFound (initEntry ra)]) := by
      unfold phase2State
      rw [hph1]
      dsimp only
      rw [show List.range ([markFound (initEntry rb)] : List Entry).length = [0] from rfl,
        runPhase_cons]
      simp only [List.getD_cons_zero]
      rw [if_pos (markFound_matched (initEntry rb))]
      rfl
    rw [reconcile_accounts_eq, hph2]
    rfl
  · intro hdiff
    have hnle : ¬ (da - db).natAbs ≤ 1 := by omega
    have hnle' : ¬ (db - da).natAbs ≤ 1 := by omega
    have hct1 : chosenTarget (initEntry ra) (buildIndex [initEntry rb])
        [initEntry rb] = none := by
      unfold chosenTarget
      rw [hda']
      dsimp only
      rw [hbB, if_neg (by simp), findTarget_cons]
      simp only [List.getD_cons_zero]
      rw [if_neg (initEntry_not_matched rb), if_neg hnle]
      rfl
    have hph1 : phase1State [ra] [rb] = ([initEntry ra], [initEntry rb]) := by
      unfold phase1State
      rw [show List.range ([ra].map initEntry).length = [0] from rfl, runPhase_cons]
      simp only [List.map_cons, List.map_nil, List.getD_cons_zero]
      rw [if_neg (initEntry_not_matched ra), find_and_mark_of_chosen_none _ _ _ hct1]
      dsimp only
      rfl
    have hct2 : chosenTarget (initEntry rb) (buildIndex [initEntry ra])
        [initEntry ra] = none := by
      unfold chosenTarget
      rw [hdb']
      dsimp only
      rw [hbA, if_neg (by simp), findTarget_cons]
      simp only [List.getD_cons_zero]
      rw [if_neg (initEntry_not_matched ra), if_neg hnle']
      rfl
    have hph2 : phase2State [ra] [rb] = ([initEntry rb], [initEntry ra]) := by
      unfold phase2State
      rw [hph1]
      dsimp only
      rw [show List.range ([initEntry rb] : List Entry).length = [0] from rfl,
        runPhase_cons]
      simp only [List.map_cons, List.map_nil, List.getD_cons_zero]
      rw [if_neg (initEntry_not_matched rb), find_and_mark_of_chosen_none _ _ _ hct2]
      dsimp only
      rfl
    rw [reconcile_accounts_eq, hph2]
    rfl

/-- Witness for C3: the spec's scenario, `2024-01-01` vs `2024-01-02` with the
same key, both `FOUND`. -/
theorem date_tolerance_boundary_witness :
    (civilToDays 2024 1 1 - civilToDays 2024 1 2).natAbs = 1 ∧
    reconcile_accounts
        [RawRow.cells [some "2024-01-01", some "Sales", some "100.00", some "Alice"]]
        [RawRow.cells [some "2024-01-02", some "Sales", some "100.00", some "Alice"]] =
      ([normalize_row (RawRow.cells
          [some "2024-01-01", some "Sales", some "100.00", some "Alice"]) ++ ["FOUND"]],
       [normalize_row (RawRow.cells
          [some "2024-01-02", some "Sales", some "100.00", some "Alice"]) ++ ["FOUND"]]) :=
  ⟨by decide,
   (date_tolerance_boundary
      (RawRow.cells [some "2024-01-01", some "Sales", some "100.00", some "Alice"])
      (RawRow.cells [some "2024-01-02", some "Sales", some "100.00", some "Alice"])
      (civilToDays 2024 1 1) (civilToDays 2024 1 2)
      (by decide) (by decide) (by decide)).1 (by decide)⟩

end Reconcile

namespace Reconcile

/-- **C9.** `reconcile_accounts` (which builds A's index before Phase 1) is
extensionally identical to the variant that rebuilds A's index after Phase 1
from the still-unmatched A entries only: already-matched A targets are skipped
at scan time, so omitting them from the index changes nothing. -/
theorem phase2_index_rebuild_equiv (ta tb : List RawRow) :
    reconcile_accounts ta tb = reconcile_accounts_rebuilt ta tb := by
  have hreb : reconcile_accounts_rebuilt ta tb =
      ((runPhase (buildIndexUnmatched (phase1State ta tb).1)
          (List.range (phase1State ta tb).2.length)
          ((phase1State ta tb).2, (phase1State ta tb).1)).2.map
            (fun e => e.original_row ++ [e.status]),
       (runPhase (buildIndexUnmatched (phase1State ta tb).1)
          (List.range (phase1State ta tb).2.length)
          ((phase1State ta tb).2, (phase1State ta tb).1)).1.map
            (fun e => e.original_row ++ [e.status])) := rfl
  have hrows : (phase1State ta tb).1.map Entry.original_row =
      (ta.map initEntry).map Entry.original_row :=
    (runPhase_rows (buildIndex (tb.map initEntry))
      (List.range (ta.map initEntry).length) (ta.map initEntry) (tb.map initEntry)).1
  have hkey := phase2_rebuild_eq (ta.map initEntry) (phase1State ta tb).2
    (phase1State ta tb).1 (List.range (phase1State ta tb).2.length) hrows
  rw [reconcile_accounts_eq, hreb]
  unfold phase2State
  rw [hkey]

/-! ## Helpers for the pairing bijection -/

theorem swap_map_fst (l : List (Nat × Nat)) :
    (l.map Prod.swap).map Prod.fst = l.map Prod.snd := by
  induction l with
  | nil => rfl
  | cons p t ih => simp only [List.map_cons, ih]; rfl

theorem swap_map_snd (l : List (Nat × Nat)) :
    (l.map Prod.swap).map Prod.snd = l.map Prod.fst := by
  induction l with
  | nil => rfl
  | cons p t ih => simp only [List.map_cons, ih]; rfl

theorem getD_append_singleton {α : Type} (l : List α) (x : α) (d : α) :
    (l ++ [x]).getD l.length d = x := by
  induction l with
  | nil => rfl
  | cons a t ih => simp only [List.cons_append, List.length_cons, List.getD_cons_succ, ih]

theorem phase2_entry_row_a (ta tb : List RawRow) (i : Nat) (hi : i < ta.length) :
    ((phase2State ta tb).2.getD i default).original_row =
      normalize_row (ta.getD i default) := by
  have hlen : i < (phase2State ta tb).2.length := by rw [phase2_len_a]; exact hi
  have h := congrArg (fun l => l.getD i ([] : List String)) (phase2_rows_a ta tb)
  dsimp only at h
  rw [getD_map_general _ _ _ i hlen, getD_map_general _ _ _ i hi] at h
  exact h

theorem phase2_entry_row_b (ta tb : List RawRow) (j : Nat) (hj : j < tb.length) :
    ((phase2State ta tb).1.getD j default).original_row =
      normalize_row (tb.getD j default) := by
  have hlen : j < (phase2State ta tb).1.length := by rw [phase2_len_b]; exact hj
  have h := congrArg (fun l => l.getD j ([] : List String)) (phase2_rows_b ta tb)
  dsimp only at h
  rw [getD_map_general _ _ _ j hlen, getD_map_general _ _ _ j hj] at h
  exact h

theorem phase2_mem_row_len_a (ta tb : List RawRow) :
    ∀ a ∈ (phase2State ta tb).2, a.original_row.length = 4 := by
  intro a ha
  have h : a.original_row ∈ (phase2State ta tb).2.map Entry.original_row :=
    List.mem_map_of_mem _ ha
  rw [phase2_rows_a] at h
  obtain ⟨r, _, hr⟩ := List.mem_map.mp h
  rw [← hr]
  exact normalize_row_length r

theorem phase2_mem_row_len_b (ta tb : List RawRow) :
    ∀ a ∈ (phase2State ta tb).1, a.original_row.length = 4 := by
  intro a ha
  have h : a.original_row ∈ (phase2State ta tb).1.map Entry.original_row :=
    List.mem_map_of_mem _ ha
  rw [phase2_rows_b] at h
  obtain ⟨r, _, hr⟩ := List.mem_map.mp h
  rw [← hr]
  exact normalize_row_length r

theorem result_a_found_iff (ta tb : List RawRow) (i : Nat) :
    (((reconcile_accounts ta tb).1.getD i []).getD 4 "" = "FOUND") ↔
      ((phase2State ta tb).2.getD i default).matched = true := by
  by_cases hi : i < ta.length
  · have hlen : i < (phase2State ta tb).2.length := by rw [phase2_len_a]; exact hi
    rw [reconcile_accounts_eq]
    show (((phase2State ta tb).2.map _).getD i []).getD 4 "" = "FOUND" ↔ _
    rw [getD_map_general _ _ _ i hlen]
    have hrow4 : ((phase2State ta tb).2.getD i default).original_row.length = 4 := by
      rw [phase2_entry_row_a ta tb i hi]; exact normalize_row_length _
    have hst : (((phase2State ta tb).2.getD i default).original_row ++
        [((phase2State ta tb).2.getD i default).status]).getD 4 "" =
        ((phase2State ta tb).2.getD i default).status := by
      rw [← hrow4]
      exact getD_append_singleton _ _ _
    rw [hst]
    have hinv : ((phase2State ta tb).2.getD i default).matched = true ↔
        ((phase2State ta tb).2.getD i default).status = "FOUND" := by
      rcases getD_mem_or_default ((phase2State ta tb).2) i with hmem | hdef
      · exact (phase2_inv ta tb).2 _ hmem
      · rw [hdef]; exact inv_default
    exact hinv.symm
  · have hlen : (phase2State ta tb).2.length ≤ i := by rw [phase2_len_a]; omega
    constructor
    · intro h
      exfalso
      rw [reconcile_accounts_eq] at h
      have hlen' : ((phase2State ta tb).2.map
          (fun e => e.original_row ++ [e.status])).length ≤ i := by
        rw [List.length_map]; exact hlen
      rw [List.getD_eq_default _ _ hlen'] at h
      simp at h
    · intro h
      exfalso
      rw [List.getD_eq_default _ _ hlen] at h
      exact absurd h (by simp [default])

theorem result_b_found_iff (ta tb : List RawRow) (j : Nat) :
    (((reconcile_accounts ta tb).2.getD j []).getD 4 "" = "FOUND") ↔
      ((phase2State ta tb).1.getD j default).matched = true := by
  by_cases hj : j < tb.length
  · have hlen : j < (phase2State ta tb).1.length := by rw [phase2_len_b]; exact hj
    rw [reconcile_accounts_eq]
    show (((phase2State ta tb).1.map _).getD j []).getD 4 "" = "FOUND" ↔ _
    rw [getD_map_general _ _ _ j hlen]
    have hrow4 : ((phase2State ta tb).1.getD j default).original_row.length = 4 := by
      rw [phase2_entry_row_b ta tb j hj]; exact normalize_row_length _
    have hst : (((phase2State ta tb).1.getD j default).original_row ++
        [((phase2State ta tb).1.getD j default).status]).getD 4 "" =
        ((phase2State ta tb).1.getD j default).status := by
      rw [← hrow4]
      exact getD_append_singleton _ _ _
    rw [hst]
    have hinv : ((phase2State ta tb).1.getD j default).matched = true ↔
        ((phase2State ta tb).1.getD j default).status = "FOUND" := by
      rcases getD_mem_or_default ((phase2State ta tb).1) j with hmem | hdef
      · exact (phase2_inv ta tb).1 _ hmem
      · rw [hdef]; exact inv_default
    exact hinv.symm
  · have hlen : (phase2State ta tb).1.length ≤ j := by rw [phase2_len_b]; omega
    constructor
    · intro h
      exfalso
      rw [reconcile_accounts_eq] at h
      have hlen' : ((phase2State ta tb).1.map
          (fun e => e.original_row ++ [e.status])).length ≤ j := by
        rw [List.length_map]; exact hlen
      rw [List.getD_eq_default _ _ hlen'] at h
      simp at h
    · intro h
      exfalso
      rw [List.getD_eq_default _ _ hlen] at h
      exact absurd h (by simp [default])

theorem countP_matched_init (l : List RawRow) :
    (l.map initEntry).countP (fun e => e.matched) = 0 := by
  rw [List.countP_eq_zero]
  intro a ha
  obtain ⟨r, _, rfl⟩ := List.mem_map.mp ha
  simp [initEntry]

theorem phase2_count_eq (ta tb : List RawRow) :
    (phase2State ta tb).2.countP (fun e => e.matched) =
      (phase2State ta tb).1.countP (fun e => e.matched) := by
  have h1 : (phase1State ta tb).1.countP (fun e => e.matched) +
      (tb.map initEntry).countP (fun e => e.matched) =
      (ta.map initEntry).countP (fun e => e.matched) +
      (phase1State ta tb).2.countP (fun e => e.matched) :=
    runPhase_count (buildIndex (tb.map initEntry))
      (List.range (ta.map initEntry).length) (ta.map initEntry) (tb.map initEntry)
      (fun k p hp => buildIndex_pos_lt _ k p hp)
      (fun i hi => List.mem_range.mp hi)
  have hlen1 : (phase1State ta tb).1.length = (ta.map initEntry).length :=
    (runPhase_lengths (buildIndex (tb.map initEntry))
      (List.range (ta.map initEntry).length)
      (ta.map initEntry) (tb.map initEntry)).1
  have h2 : (phase2State ta tb).1.countP (fun e => e.matched) +
      (phase1State ta tb).1.countP (fun e => e.matched) =
      (phase1State ta tb).2.countP (fun e => e.matched) +
      (phase2State ta tb).2.countP (fun e => e.matched) :=
    runPhase_count (buildIndex (ta.map initEntry))
      (List.range (phase1State ta tb).2.length)
      (phase1State ta tb).2 (phase1State ta tb).1
      (fun k p hp => by rw [hlen1]; exact buildIndex_pos_lt _ k p hp)
      (fun j hj => List.mem_range.mp hj)
  have hz1 := countP_matched_init ta
  have hz2 := countP_matched_init tb
  omega

end Reconcile

namespace Reconcile

/-- **C2.** The `FOUND` entries of the two results are in bijection through
the pairs created by `find_and_mark`: there is a list of `(A position,
B position)` pairs, duplicate-free in each component, whose first components
are exactly the `FOUND` positions of result A and whose second components are
exactly the `FOUND` positions of result B; in particular the two results
contain the same number of `FOUND` rows, for every input. -/
theorem found_pairing_bijection (ta tb : List RawRow) :
    ∃ pairs : List (Nat × Nat),
      (pairs.map Prod.fst).Nodup ∧ (pairs.map Prod.snd).Nodup ∧
      (∀ i, (((reconcile_accounts ta tb).1.getD i []).getD 4 "" = "FOUND" ↔
        i ∈ pairs.map Prod.fst)) ∧
      (∀ j, (((reconcile_accounts ta tb).2.getD j []).getD 4 "" = "FOUND" ↔
        j ∈ pairs.map Prod.snd)) ∧
      (reconcile_accounts ta tb).1.countP (fun r => r.getD 4 "" == "FOUND") =
        (reconcile_accounts ta tb).2.countP (fun r => r.getD 4 "" == "FOUND") := by
  have H1 := runPhaseP_pairs (buildIndex (tb.map initEntry))
    (List.range (ta.map initEntry).length) (ta.map initEntry) (tb.map initEntry) []
    (fun k p hp => buildIndex_pos_lt _ k p hp)
    (fun i hi => List.mem_range.mp hi)
    (by intro i; rw [(getD_map_initEntry ta i).1]; simp)
    (by intro j; rw [(getD_map_initEntry tb j).1]; simp)
    (by simp) (by simp)
  have hproj1 : (runPhaseP (buildIndex (tb.map initEntry))
      (List.range (ta.map initEntry).length)
      (ta.map initEntry, tb.map initEntry)).1 = phase1State ta tb :=
    runPhaseP_fst (buildIndex (tb.map initEntry))
      (List.range (ta.map initEntry).length) (ta.map initEntry) (tb.map initEntry)
  rw [hproj1, List.nil_append] at H1
  obtain ⟨hA1, hB1, hN1f, hN1s⟩ := H1
  have hlen1 : (phase1State ta tb).1.length = (ta.map initEntry).length :=
    (runPhase_lengths (buildIndex (tb.map initEntry))
      (List.range (ta.map initEntry).length)
      (ta.map initEntry) (tb.map initEntry)).1
  have H2 := runPhaseP_pairs (buildIndex (ta.map initEntry))
    (List.range (phase1State ta tb).2.length)
    (phase1State ta tb).2 (phase1State ta tb).1
    ((runPhaseP (buildIndex (tb.map initEntry))
      (List.range (ta.map initEntry).length)
      (ta.map initEntry, tb.map initEntry)).2.map Prod.swap)
    (fun k p hp => by rw [hlen1]; exact buildIndex_pos_lt _ k p hp)
    (fun j hj => List.mem_range.mp hj)
    (by intro j; rw [swap_map_fst]; exact hB1 j)
    (by intro i; rw [swap_map_snd]; exact hA1 i)
    (by rw [swap_map_fst]; exact hN1s)
    (by rw [swap_map_snd]; exact hN1f)
  have hproj2 : (runPhaseP (buildIndex (ta.map initEntry))
      (List.range (phase1State ta tb).2.length)
      ((phase1State ta tb).2, (phase1State ta tb).1)).1 = phase2State ta tb :=
    runPhaseP_fst (buildIndex (ta.map initEntry))
      (List.range (phase1State ta tb).2.length)
      (phase1State ta tb).2 (phase1State ta tb).1
  rw [hproj2] at H2
  obtain ⟨hB2, hA2, hN2f, hN2s⟩ := H2
  refine ⟨(runPhaseP (buildIndex (tb.map initEntry))
      (List.range (ta.map initEntry).length)
      (ta.map initEntry, tb.map initEntry)).2 ++
    (runPhaseP (buildIndex (ta.map initEntry))
      (List.range (phase1State ta tb).2.length)
      ((phase1State ta tb).2, (phase1State ta tb).1)).2.map Prod.swap,
    ?_, ?_, ?_, ?_, ?_⟩
  · rw [List.map_append, swap_map_fst]
    rw [List.map_append, swap_map_snd] at hN2s
    exact hN2s
  · rw [List.map_append, swap_map_snd]
    rw [List.map_append, swap_map_fst] at hN2f
    exact hN2f
  · intro i
    rw [List.map_append, swap_map_fst]
    rw [List.map_append, swap_map_snd] at hA2
    exact (result_a_found_iff ta tb i).trans (hA2 i)
  · intro j
    rw [List.map_append, swap_map_snd]
    rw [List.map_append, swap_map_fst] at hB2
    exact (result_b_found_iff ta tb j).trans (hB2 j)
  · have hc1 : (reconcile_accounts ta tb).1.countP (fun r => r.getD 4 "" == "FOUND") =
        (phase2State ta tb).2.countP (fun e => e.matched) := by
      rw [reconcile_accounts_eq]
      show ((phase2State ta tb).2.map _).countP _ = _
      rw [List.countP_map]
      apply List.countP_congr
      intro e he
      have h4 : e.original_row.length = 4 := phase2_mem_row_len_a ta tb e he
      have hst : (e.original_row ++ [e.status]).getD 4 "" = e.status := by
        rw [← h4]
        exact getD_append_singleton _ _ _
      have hinv := (phase2_inv ta tb).2 e he
      show ((e.original_row ++ [e.status]).getD 4 "" == "FOUND") = true ↔
        e.matched = true
      rw [hst, beq_iff_eq]
      exact hinv.symm
    have hc2 : (reconcile_accounts ta tb).2.countP (fun r => r.getD 4 "" == "FOUND") =
        (phase2State ta tb).1.countP (fun e => e.matched) := by
      rw [reconcile_accounts_eq]
      show ((phase2State ta tb).1.map _).countP _ = _
      rw [List.countP_map]
      apply List.countP_congr
      intro e he
      have h4 : e.original_row.length = 4 := phase2_mem_row_len_b ta tb e he
      have hst : (e.original_row ++ [e.status]).getD 4 "" = e.status := by
        rw [← h4]
        exact getD_append_singleton _ _ _
      have hinv := (phase2_inv ta tb).1 e he
      show ((e.original_row ++ [e.status]).getD 4 "" == "FOUND") = true ↔
        e.matched = true
      rw [hst, beq_iff_eq]
      exact hinv.symm
    rw [hc1, hc2, phase2_count_eq]

end Reconcile
